import Mathlib

/-!
Verification of the constant-folding pass in
`torch/csrc/jit/tensorexpr/constant_folder.h` (`ConstantFolder`).

The pass itself (`ConstantFolder`, the only file under `src/`) is embedded
faithfully below as `step`/`foldExpr`.  The expression node model (`ir.h`),
the mutator defaults (`ir_mutator.h`), the typed constant evaluator
(`eval.h`), the exception classes (`exceptions.h`) and the scalar type
enumeration (`types.h`) are code of this repository that is not under
`src/`; those parts are modelled from the spec, and each such definition
carries a doc comment starting with `Modelled from the spec:`.
-/

/-- Modelled from the spec: the scalar element type enumeration (`types.h` is
not in `src/`).  The data model (§3) gives immediates for exactly two element
types, integer and float, so the embedding keeps the two scalar type tags the
immediates of the data model carry. -/
inductive ScalarType where
  | SInt
  | SFloat
deriving DecidableEq, Repr

/-- Modelled from the spec: a dtype is a scalar element type together with a
vector lane count (§3, "each node has a scalar/vector dtype"). -/
structure Dtype where
  scalar : ScalarType
  lanes : Nat
deriving DecidableEq, Repr

/-- Modelled from the spec: the intrinsic operation kinds.  The spec (§3)
gives pure examples (`sqrt`, `sin`) and requires at least one impure kind
("an impure call ... is never folded"); the embedding keeps one pure kind
(`sqrt`) and one impure kind (`rand`). -/
inductive IntrinsicOp where
  | sqrt
  | rand
deriving DecidableEq, Repr

/-- Modelled from the spec: the purity flag carried by an intrinsic call
(§3); purity is a function of the operation kind, so a rebuilt call with the
same kind keeps the same purity. -/
def isPureOp : IntrinsicOp → Bool
  | .sqrt => true
  | .rand => false

/-- Modelled from the spec: the closed node-kind enumeration (`IRNodeType` of
`ir.h`, not in `src/`).  It has one tag per expression node variant of the
data model; the operator factory recognises exactly the eleven binary
operator tags. -/
inductive IRNodeType where
  | kAdd
  | kSub
  | kMul
  | kDiv
  | kMod
  | kMax
  | kMin
  | kAnd
  | kXor
  | kLshift
  | kRshift
  | kVar
  | kIntImm
  | kFloatImm
  | kCast
  | kBroadcast
  | kRamp
  | kIntrinsics
  | kLoad
deriving DecidableEq, Repr

/-- Modelled from the spec: the two fatal error conditions of §7
(`exceptions.h` is not in `src/`): `UnsupportedDtype` raised by the constant
evaluator, and `UnsupportedOperator`, which §7 says the operator factory
raises for a kind outside the fixed enumeration. -/
inductive FoldError where
  | unsupportedDtype
  | unsupportedOperator
deriving DecidableEq, Repr

/-- Modelled from the spec: the immutable expression node hierarchy of §3
(`ir.h` is not in `src/`).  Variants are exactly the ones the pass visits:
variables, the two immediates, the eleven binary operators (`Max`/`Min`
carry the `propagate_nans` flag), `Cast`, `Broadcast`, `Ramp`, n-ary
`Intrinsics`, and `Load`, whose base handle is an opaque variable reference
(a name and a dtype, the payload of a `Var`), never an expression the pass
recurses into. -/
inductive Expr where
  | Var (name : String) (vdt : Dtype)
  | IntImm (n : Int)
  | FloatImm (q : Rat)
  | Add (l r : Expr)
  | Sub (l r : Expr)
  | Mul (l r : Expr)
  | Div (l r : Expr)
  | Mod (l r : Expr)
  | And (l r : Expr)
  | Xor (l r : Expr)
  | Lshift (l r : Expr)
  | Rshift (l r : Expr)
  | Max (l r : Expr) (pn : Bool)
  | Min (l r : Expr) (pn : Bool)
  | Cast (t : Dtype) (s : Expr)
  | Broadcast (v : Expr) (lanes : Nat)
  | Ramp (base stride : Expr) (lanes : Nat)
  | Intrinsics (op : IntrinsicOp) (ps : List Expr)
  | Load (dt : Dtype) (bname : String) (bdt : Dtype) (i m : Expr)
deriving Repr

mutual
/-- Size of an expression tree (counting every node once); the termination
measure for the bottom-up traversal. -/
def esize : Expr → Nat
  | .Var _ _ => 1
  | .IntImm _ => 1
  | .FloatImm _ => 1
  | .Add l r => 1 + esize l + esize r
  | .Sub l r => 1 + esize l + esize r
  | .Mul l r => 1 + esize l + esize r
  | .Div l r => 1 + esize l + esize r
  | .Mod l r => 1 + esize l + esize r
  | .And l r => 1 + esize l + esize r
  | .Xor l r => 1 + esize l + esize r
  | .Lshift l r => 1 + esize l + esize r
  | .Rshift l r => 1 + esize l + esize r
  | .Max l r _ => 1 + esize l + esize r
  | .Min l r _ => 1 + esize l + esize r
  | .Cast _ s => 1 + esize s
  | .Broadcast v _ => 1 + esize v
  | .Ramp b s _ => 1 + esize b + esize s
  | .Intrinsics _ ps => 1 + esizeL ps
  | .Load _ _ _ i m => 1 + esize i + esize m
def esizeL : List Expr → Nat
  | [] => 0
  | p :: ps => esize p + esizeL ps
end

mutual
/-- Structural equality of expressions (the embedding's counterpart of the
node identity the C++ pass compares with pointer equality). -/
def eeq : Expr → Expr → Bool
  | .Var a x, c => match c with | .Var b y => a = b && x = y | _ => false
  | .IntImm a, c => match c with | .IntImm b => a = b | _ => false
  | .FloatImm a, c => match c with | .FloatImm b => a = b | _ => false
  | .Add a b, c => match c with | .Add x y => eeq a x && eeq b y | _ => false
  | .Sub a b, c => match c with | .Sub x y => eeq a x && eeq b y | _ => false
  | .Mul a b, c => match c with | .Mul x y => eeq a x && eeq b y | _ => false
  | .Div a b, c => match c with | .Div x y => eeq a x && eeq b y | _ => false
  | .Mod a b, c => match c with | .Mod x y => eeq a x && eeq b y | _ => false
  | .And a b, c => match c with | .And x y => eeq a x && eeq b y | _ => false
  | .Xor a b, c => match c with | .Xor x y => eeq a x && eeq b y | _ => false
  | .Lshift a b, c => match c with | .Lshift x y => eeq a x && eeq b y | _ => false
  | .Rshift a b, c => match c with | .Rshift x y => eeq a x && eeq b y | _ => false
  | .Max a b p, c => match c with | .Max x y q => eeq a x && eeq b y && p = q | _ => false
  | .Min a b p, c => match c with | .Min x y q => eeq a x && eeq b y && p = q | _ => false
  | .Cast t s, c => match c with | .Cast u w => t = u && eeq s w | _ => false
  | .Broadcast v l, c => match c with | .Broadcast w m => eeq v w && l = m | _ => false
  | .Ramp a b l, c => match c with | .Ramp x y m => eeq a x && eeq b y && l = m | _ => false
  | .Intrinsics o a, c => match c with | .Intrinsics p b => o = p && eeqL a b | _ => false
  | .Load d n t i m, c =>
    match c with
    | .Load e o u j k => d = e && n = o && t = u && eeq i j && eeq m k
    | _ => false
def eeqL : List Expr → List Expr → Bool
  | [], b => match b with | [] => true | _ => false
  | a :: as, b => match b with | c :: cs => eeq a c && eeqL as cs | _ => false
end

mutual
theorem eeq_refl : ∀ e : Expr, eeq e e = true
  | .Var _ _ => by simp [eeq]
  | .IntImm _ => by simp [eeq]
  | .FloatImm _ => by simp [eeq]
  | .Add l r => by simp [eeq, eeq_refl l, eeq_refl r]
  | .Sub l r => by simp [eeq, eeq_refl l, eeq_refl r]
  | .Mul l r => by simp [eeq, eeq_refl l, eeq_refl r]
  | .Div l r => by simp [eeq, eeq_refl l, eeq_refl r]
  | .Mod l r => by simp [eeq, eeq_refl l, eeq_refl r]
  | .And l r => by simp [eeq, eeq_refl l, eeq_refl r]
  | .Xor l r => by simp [eeq, eeq_refl l, eeq_refl r]
  | .Lshift l r => by simp [eeq, eeq_refl l, eeq_refl r]
  | .Rshift l r => by simp [eeq, eeq_refl l, eeq_refl r]
  | .Max l r _ => by simp [eeq, eeq_refl l, eeq_refl r]
  | .Min l r _ => by simp [eeq, eeq_refl l, eeq_refl r]
  | .Cast _ s => by simp [eeq, eeq_refl s]
  | .Broadcast v _ => by simp [eeq, eeq_refl v]
  | .Ramp b s _ => by simp [eeq, eeq_refl b, eeq_refl s]
  | .Intrinsics _ ps => by simp [eeq, eeqL_refl ps]
  | .Load _ _ _ i m => by simp [eeq, eeq_refl i, eeq_refl m]
theorem eeqL_refl : ∀ ps : List Expr, eeqL ps ps = true
  | [] => by simp [eeqL]
  | p :: ps => by simp [eeqL, eeq_refl p, eeqL_refl ps]
end

mutual
theorem eeq_eq : ∀ a b : Expr, eeq a b = true → a = b
  | .Var _ _, c => by cases c <;> simp [eeq]
  | .IntImm _, c => by cases c <;> simp [eeq]
  | .FloatImm _, c => by cases c <;> simp [eeq]
  | .Add a b, c => by
      cases c
      case Add c d =>
        simp only [eeq, Bool.and_eq_true]
        rintro ⟨h1, h2⟩
        rw [eeq_eq a c h1, eeq_eq b d h2]
      all_goals simp [eeq]
  | .Sub a b, c => by
      cases c
      case Sub c d =>
        simp only [eeq, Bool.and_eq_true]
        rintro ⟨h1, h2⟩
        rw [eeq_eq a c h1, eeq_eq b d h2]
      all_goals simp [eeq]
  | .Mul a b, c => by
      cases c
      case Mul c d =>
        simp only [eeq, Bool.and_eq_true]
        rintro ⟨h1, h2⟩
        rw [eeq_eq a c h1, eeq_eq b d h2]
      all_goals simp [eeq]
  | .Div a b, c => by
      cases c
      case Div c d =>
        simp only [eeq, Bool.and_eq_true]
        rintro ⟨h1, h2⟩
        rw [eeq_eq a c h1, eeq_eq b d h2]
      all_goals simp [eeq]
  | .Mod a b, c => by
      cases c
      case Mod c d =>
        simp only [eeq, Bool.and_eq_true]
        rintro ⟨h1, h2⟩
        rw [eeq_eq a c h1, eeq_eq b d h2]
      all_goals simp [eeq]
  | .And a b, c => by
      cases c
      case And c d =>
        simp only [eeq, Bool.and_eq_true]
        rintro ⟨h1, h2⟩
        rw [eeq_eq a c h1, eeq_eq b d h2]
      all_goals simp [eeq]
  | .Xor a b, c => by
      cases c
      case Xor c d =>
        simp only [eeq, Bool.and_eq_true]
        rintro ⟨h1, h2⟩
        rw [eeq_eq a c h1, eeq_eq b d h2]
      all_goals simp [eeq]
  | .Lshift a b, c => by
      cases c
      case Lshift c d =>
        simp only [eeq, Bool.and_eq_true]
        rintro ⟨h1, h2⟩
        rw [eeq_eq a c h1, eeq_eq b d h2]
      all_goals simp [eeq]
  | .Rshift a b, c => by
      cases c
      case Rshift c d =>
        simp only [eeq, Bool.and_eq_true]
        rintro ⟨h1, h2⟩
        rw [eeq_eq a c h1, eeq_eq b d h2]
      all_goals simp [eeq]
  | .Max a b p, c => by
      cases c
      case Max c d q =>
        simp only [eeq, Bool.and_eq_true, decide_eq_true_eq]
        rintro ⟨⟨h1, h2⟩, h3⟩
        rw [eeq_eq a c h1, eeq_eq b d h2, h3]
      all_goals simp [eeq]
  | .Min a b p, c => by
      cases c
      case Min c d q =>
        simp only [eeq, Bool.and_eq_true, decide_eq_true_eq]
        rintro ⟨⟨h1, h2⟩, h3⟩
        rw [eeq_eq a c h1, eeq_eq b d h2, h3]
      all_goals simp [eeq]
  | .Cast t s, c => by
      cases c
      case Cast u w =>
        simp only [eeq, Bool.and_eq_true, decide_eq_true_eq]
        rintro ⟨h1, h2⟩
        rw [h1, eeq_eq s w h2]
      all_goals simp [eeq]
  | .Broadcast v l, c => by
      cases c
      case Broadcast w m =>
        simp only [eeq, Bool.and_eq_true, decide_eq_true_eq]
        rintro ⟨h1, h2⟩
        rw [eeq_eq v w h1, h2]
      all_goals simp [eeq]
  | .Ramp a b l, c => by
      cases c
      case Ramp x d m =>
        simp only [eeq, Bool.and_eq_true, decide_eq_true_eq]
        rintro ⟨⟨h1, h2⟩, h3⟩
        rw [eeq_eq a x h1, eeq_eq b d h2, h3]
      all_goals simp [eeq]
  | .Intrinsics o a, c => by
      cases c
      case Intrinsics p b =>
        simp only [eeq, Bool.and_eq_true, decide_eq_true_eq]
        rintro ⟨h1, h2⟩
        rw [h1, eeqL_eq a b h2]
      all_goals simp [eeq]
  | .Load d n t i m, c => by
      cases c
      case Load e o u j k =>
        simp only [eeq, Bool.and_eq_true, decide_eq_true_eq]
        rintro ⟨⟨⟨⟨h1, h2⟩, h3⟩, h4⟩, h5⟩
        rw [h1, h2, h3, eeq_eq i j h4, eeq_eq m k h5]
      all_goals simp [eeq]
theorem eeqL_eq : ∀ a b : List Expr, eeqL a b = true → a = b
  | [], [] => by simp
  | a :: as, b :: bs => by
      simp only [eeqL, Bool.and_eq_true]
      rintro ⟨h1, h2⟩
      rw [eeq_eq a b h1, eeqL_eq as bs h2]
  | [], _ :: _ => by simp [eeqL]
  | _ :: _, [] => by simp [eeqL]
end

instance : DecidableEq Expr := fun a b =>
  decidable_of_iff (eeq a b = true) ⟨eeq_eq a b, fun h => h ▸ eeq_refl a⟩

mutual
/-- Modelled from the spec: the is-constant predicate of the node model
(§3, "true for immediates and recursively for nodes whose operands are all
constant and which are pure"); variables, `Broadcast`, `Ramp` and `Load`
are never constant. -/
def isConstant : Expr → Bool
  | .IntImm _ => true
  | .FloatImm _ => true
  | .Add l r => isConstant l && isConstant r
  | .Sub l r => isConstant l && isConstant r
  | .Mul l r => isConstant l && isConstant r
  | .Div l r => isConstant l && isConstant r
  | .Mod l r => isConstant l && isConstant r
  | .And l r => isConstant l && isConstant r
  | .Xor l r => isConstant l && isConstant r
  | .Lshift l r => isConstant l && isConstant r
  | .Rshift l r => isConstant l && isConstant r
  | .Max l r _ => isConstant l && isConstant r
  | .Min l r _ => isConstant l && isConstant r
  | .Cast _ s => isConstant s
  | .Intrinsics op ps => isPureOp op && isConstantL ps
  | _ => false
def isConstantL : List Expr → Bool
  | [] => true
  | p :: ps => isConstant p && isConstantL ps
end

/-- Whether a node is an immediate (an `IntImm` or a `FloatImm`). -/
def isImm : Expr → Bool
  | .IntImm _ => true
  | .FloatImm _ => true
  | _ => false

/-- Scalar type promotion of the node model: two integer operands give an
integer node, anything else is float.  (Modelled from the spec: binary
operator nodes of `ir.h` carry the promoted dtype of their operands.) -/
def promoteScalar : ScalarType → ScalarType → ScalarType
  | .SInt, .SInt => .SInt
  | _, _ => .SFloat

mutual
/-- Modelled from the spec: the per-node dtype of the node model (§3).
Immediates are scalar, `Broadcast`/`Ramp` give their element type `lanes`
lanes, binary operators carry the promoted operand dtype, `Cast` its target
dtype, `Load` its stored dtype, an intrinsic call the dtype of its first
parameter (float scalar when it has none). -/
def dtype : Expr → Dtype
  | .Var _ d => d
  | .IntImm _ => ⟨.SInt, 1⟩
  | .FloatImm _ => ⟨.SFloat, 1⟩
  | .Add l r => ⟨promoteScalar (dtype l).scalar (dtype r).scalar, (dtype l).lanes⟩
  | .Sub l r => ⟨promoteScalar (dtype l).scalar (dtype r).scalar, (dtype l).lanes⟩
  | .Mul l r => ⟨promoteScalar (dtype l).scalar (dtype r).scalar, (dtype l).lanes⟩
  | .Div l r => ⟨promoteScalar (dtype l).scalar (dtype r).scalar, (dtype l).lanes⟩
  | .Mod l r => ⟨promoteScalar (dtype l).scalar (dtype r).scalar, (dtype l).lanes⟩
  | .And l r => ⟨promoteScalar (dtype l).scalar (dtype r).scalar, (dtype l).lanes⟩
  | .Xor l r => ⟨promoteScalar (dtype l).scalar (dtype r).scalar, (dtype l).lanes⟩
  | .Lshift l r => ⟨promoteScalar (dtype l).scalar (dtype r).scalar, (dtype l).lanes⟩
  | .Rshift l r => ⟨promoteScalar (dtype l).scalar (dtype r).scalar, (dtype l).lanes⟩
  | .Max l r _ => ⟨promoteScalar (dtype l).scalar (dtype r).scalar, (dtype l).lanes⟩
  | .Min l r _ => ⟨promoteScalar (dtype l).scalar (dtype r).scalar, (dtype l).lanes⟩
  | .Cast t _ => t
  | .Broadcast v lanes => ⟨(dtype v).scalar, lanes⟩
  | .Ramp b s lanes => ⟨promoteScalar (dtype b).scalar (dtype s).scalar, lanes⟩
  | .Intrinsics _ ps => dtypeHead ps
  | .Load dt _ _ _ _ => dt
def dtypeHead : List Expr → Dtype
  | [] => ⟨.SFloat, 1⟩
  | p :: _ => dtype p
end

/-- Modelled from the spec: the value domain of the typed constant
evaluator (`eval.h` is not in `src/`): an integer or a float scalar.
Floats are represented exactly (as rationals), matching §4.2's "computes
actual constant values across multiple numeric scalar types without
precision loss". -/
inductive Value where
  | VInt (n : Int)
  | VFloat (q : Rat)
deriving DecidableEq, Repr

/-- Read a value as a float. -/
def toRat : Value → Rat
  | .VInt n => (n : Rat)
  | .VFloat q => q

/-- Truncation toward zero, the C++ float-to-integer conversion. -/
def ratTrunc (q : Rat) : Int := Int.tdiv q.num (q.den : Int)

/-- Read a value as an integer (truncating a float toward zero). -/
def toInt : Value → Int
  | .VInt n => n
  | .VFloat q => ratTrunc q

/-- Convert a value to the given scalar type. -/
def convertVal : ScalarType → Value → Value
  | .SInt, v => .VInt (toInt v)
  | .SFloat, v => .VFloat (toRat v)

/-- Which scalar type a value inhabits. -/
def valKind : Value → ScalarType
  | .VInt _ => .SInt
  | .VFloat _ => .SFloat

/-- Generic numeric binary evaluation with promotion: integer op on two
integer values, float op otherwise. -/
def numBin (fi : Int → Int → Int) (ff : Rat → Rat → Rat) : Value → Value → Value
  | .VInt a, .VInt b => .VInt (fi a b)
  | a, b => .VFloat (ff (toRat a) (toRat b))

/-- Modelled from the spec: stand-ins for the machine-level integer
operations of the evaluator where Lean's exact integers differ; truncating
division (C++ `/`). -/
def intDiv (a b : Int) : Int := Int.tdiv a b

/-- Truncating remainder (C++ `%`). -/
def intMod (a b : Int) : Int := a - b * Int.tdiv a b

/-- Float remainder (`std::fmod`). -/
def ratMod (a b : Rat) : Rat := a - b * ((ratTrunc (a / b) : Int) : Rat)

/-- Bitwise and (modelled on the non-negative range). -/
def intAnd (a b : Int) : Int := Int.ofNat (Nat.land a.toNat b.toNat)

/-- Bitwise xor (modelled on the non-negative range). -/
def intXor (a b : Int) : Int := Int.ofNat (Nat.xor a.toNat b.toNat)

/-- Left shift. -/
def intShiftL (a b : Int) : Int := a * (2 ^ b.toNat)

/-- Right shift. -/
def intShiftR (a b : Int) : Int := Int.tdiv a (2 ^ b.toNat)

/-- Modelled from the spec: the numeric meaning of the pure intrinsics
(§3 gives `sqrt`-like examples); the exact numerics are external to the
pass, which treats the evaluator as an oracle, so a computable rational
stand-in is used.  The impure `rand` is never evaluated by the pass. -/
def intrinsicEval : IntrinsicOp → List Value → Value
  | .sqrt, [v] => .VFloat (Rat.sqrt (toRat v))
  | .sqrt, _ => .VFloat 0
  | .rand, _ => .VInt 0

mutual
/-- Modelled from the spec: the typed constant evaluator's interpretation
of an expression (§4.2, `eval.h` is not in `src/`).  Only invoked by the
pass on nodes whose operands are all constant; the non-constant variants
(`Var`, `Broadcast`, `Ramp`, `Load`) get arbitrary default values for
totality. -/
def evalK : Expr → Value
  | .Var _ _ => .VInt 0
  | .IntImm n => .VInt n
  | .FloatImm q => .VFloat q
  | .Add l r => numBin (· + ·) (· + ·) (evalK l) (evalK r)
  | .Sub l r => numBin (· - ·) (· - ·) (evalK l) (evalK r)
  | .Mul l r => numBin (· * ·) (· * ·) (evalK l) (evalK r)
  | .Div l r => numBin intDiv (· / ·) (evalK l) (evalK r)
  | .Mod l r => numBin intMod ratMod (evalK l) (evalK r)
  | .And l r => numBin intAnd (fun _ _ => 0) (evalK l) (evalK r)
  | .Xor l r => numBin intXor (fun _ _ => 0) (evalK l) (evalK r)
  | .Lshift l r => numBin intShiftL (fun _ _ => 0) (evalK l) (evalK r)
  | .Rshift l r => numBin intShiftR (fun _ _ => 0) (evalK l) (evalK r)
  | .Max l r _ => numBin max max (evalK l) (evalK r)
  | .Min l r _ => numBin min min (evalK l) (evalK r)
  | .Cast t s => convertVal t.scalar (evalK s)
  | .Broadcast v _ => evalK v
  | .Ramp b _ _ => evalK b
  | .Intrinsics op ps => intrinsicEval op (evalKL ps)
  | .Load _ _ _ _ _ => .VInt 0
def evalKL : List Expr → List Value
  | [] => []
  | p :: ps => evalK p :: evalKL ps
end

/-- Embedding of `ConstantFolder::evaluateOp`: run the node through the
typed evaluator and re-materialize the result as an immediate of the node's
scalar type (`getImmediateByType`).  The `unsupported_dtype` default of the
scalar-type switch is unreachable here because the embedding's scalar type
enumeration carries exactly the two immediate-bearing types. -/
def evaluateOp (v : Expr) : Expr :=
  match (dtype v).scalar with
  | .SInt => .IntImm (toInt (evalK v))
  | .SFloat => .FloatImm (toRat (evalK v))

/-- Modelled from the spec: `Expr::expr_type()` of `ir.h`, the node-kind tag
of a node. -/
def exprType : Expr → IRNodeType
  | .Var _ _ => .kVar
  | .IntImm _ => .kIntImm
  | .FloatImm _ => .kFloatImm
  | .Add _ _ => .kAdd
  | .Sub _ _ => .kSub
  | .Mul _ _ => .kMul
  | .Div _ _ => .kDiv
  | .Mod _ _ => .kMod
  | .And _ _ => .kAnd
  | .Xor _ _ => .kXor
  | .Lshift _ _ => .kLshift
  | .Rshift _ _ => .kRshift
  | .Max _ _ _ => .kMax
  | .Min _ _ _ => .kMin
  | .Cast _ _ => .kCast
  | .Broadcast _ _ => .kBroadcast
  | .Ramp _ _ _ => .kRamp
  | .Intrinsics _ _ => .kIntrinsics
  | .Load _ _ _ _ _ => .kLoad

/-- Embedding of `ConstantFolder::newBinaryOpOfType`: the binary/vector
operator factory.  Exactly the eleven binary operator kinds construct a
node (`option` is the `propagate_nans` flag, used only by `Max`/`Min`);
every other kind falls into the `default:` case, which in the source
throws `unsupported_dtype()`. -/
def newBinaryOpOfType (expr_type : IRNodeType) (lhs rhs : Expr) (option : Bool) :
    Except FoldError Expr :=
  match expr_type with
  | .kAdd => .ok (.Add lhs rhs)
  | .kSub => .ok (.Sub lhs rhs)
  | .kMul => .ok (.Mul lhs rhs)
  | .kDiv => .ok (.Div lhs rhs)
  | .kMod => .ok (.Mod lhs rhs)
  | .kMax => .ok (.Max lhs rhs option)
  | .kMin => .ok (.Min lhs rhs option)
  | .kAnd => .ok (.And lhs rhs)
  | .kXor => .ok (.Xor lhs rhs)
  | .kLshift => .ok (.Lshift lhs rhs)
  | .kRshift => .ok (.Rshift lhs rhs)
  | _ => .error .unsupportedDtype

/-- Whether a node kind is one of the eleven binary operator kinds of the
factory's enumeration. -/
def isBinaryOpKind : IRNodeType → Bool
  | .kAdd | .kSub | .kMul | .kDiv | .kMod | .kMax | .kMin
  | .kAnd | .kXor | .kLshift | .kRshift => true
  | _ => false

/-- Result of one mutator step: the rewritten node together with the log of
arguments passed to `evaluateOp` during the step, in call order. -/
abbrev FoldM := Expr × List Expr

/-- Shared tail of every binary-operator rule (`ConstantFolder::mutate`
steps 3-4 and the tail of `mutateBinaryOp`): reuse the original node when
folding changed neither child, rebuild it otherwise, and evaluate it only
when both (folded) operands are constant. -/
def foldFinish (mk : Expr → Expr → Expr) (orig l r lhs rhs : Expr) (lg : List Expr) : FoldM :=
  let node := if lhs = l ∧ rhs = r then orig else mk lhs rhs
  if isConstant lhs && isConstant rhs then (evaluateOp node, lg ++ [node]) else (node, lg)

/-- Embedding of the right-operand `Broadcast` block of
`ConstantFolder::mutate(Add)`: zero-broadcast elimination, then the
`Broadcast`+`Ramp` rewrite (build `Ramp(b + base, stride, lanes)` and
re-fold it via `R`), then fall through to the generic tail. -/
def addRampR (R : Expr → FoldM) (orig l r lhs rhs : Expr) (lg : List Expr) : FoldM :=
  match rhs with
  | .Broadcast bv _ =>
    if bv = .IntImm 0 then (lhs, lg)
    else
      match lhs with
      | .Ramp base stride lanes =>
        let p := R (.Ramp (.Add bv base) stride lanes)
        (p.1, lg ++ p.2)
      | _ => foldFinish .Add orig l r lhs rhs lg
  | _ => foldFinish .Add orig l r lhs rhs lg

/-- Embedding of the left-operand `Broadcast` block of
`ConstantFolder::mutate(Add)`; falls through to the right-operand block. -/
def addRampL (R : Expr → FoldM) (orig l r lhs rhs : Expr) (lg : List Expr) : FoldM :=
  match lhs with
  | .Broadcast bv _ =>
    if bv = .IntImm 0 then (rhs, lg)
    else
      match rhs with
      | .Ramp base stride lanes =>
        let p := R (.Ramp (.Add bv base) stride lanes)
        (p.1, lg ++ p.2)
      | _ => addRampR R orig l r lhs rhs lg
  | _ => addRampR R orig l r lhs rhs lg

/-- Embedding of the `Broadcast`-of-one checks of
`ConstantFolder::mutate(Mul)` (right operand), falling through to the
generic tail. -/
def mulBroadcastR (orig l r lhs rhs : Expr) (lg : List Expr) : FoldM :=
  match rhs with
  | .Broadcast bv _ =>
    if bv = .IntImm 1 then (lhs, lg)
    else foldFinish .Mul orig l r lhs rhs lg
  | _ => foldFinish .Mul orig l r lhs rhs lg

/-- Embedding of the `Broadcast`-of-one checks of
`ConstantFolder::mutate(Mul)` (left operand), falling through to the right
operand check. -/
def mulBroadcastL (orig l r lhs rhs : Expr) (lg : List Expr) : FoldM :=
  match lhs with
  | .Broadcast bv _ =>
    if bv = .IntImm 1 then (rhs, lg)
    else mulBroadcastR orig l r lhs rhs lg
  | _ => mulBroadcastR orig l r lhs rhs lg

/-- Embedding of `ConstantFolder::mutateBinaryOp`: fold both children, then
the generic tail (`mk` closes over the operator kind and, for `Max`/`Min`,
the `option`/`propagate_nans` flag, as `newBinaryOpOfType` does). -/
def binOpStep (R : Expr → FoldM) (mk : Expr → Expr → Expr) (orig l r : Expr) : FoldM :=
  let pl := R l
  let pr := R r
  foldFinish mk orig l r pl.1 pr.1 (pl.2 ++ pr.2)

/-- One step of `ConstantFolder`'s mutator dispatch, parameterized by the
recursive fold `R` applied to sub-expressions.  Matches the source
case-by-case: `Add`/`Sub`/`Mul`/`Div` with their identity eliminations,
the seven generic binary operators via `mutateBinaryOp` (`binOpStep`),
`Cast` (which tests the constancy of its unfolded source), `Intrinsics`,
`Load`, and the base `IRMutator` behaviour (modelled from the spec:
`ir_mutator.h` is not in `src/`) for `Broadcast`, `Ramp`, variables and
immediates: rebuild-if-child-changed, identity otherwise. -/
def step (R : Expr → FoldM) : Expr → FoldM
  | .Add l r =>
    let pl := R l
    let pr := R r
    let lhs := pl.1
    let rhs := pr.1
    let lg := pl.2 ++ pr.2
    if lhs = .IntImm 0 then (rhs, lg)
    else if rhs = .IntImm 0 then (lhs, lg)
    else addRampL R (.Add l r) l r lhs rhs lg
  | .Sub l r =>
    let pl := R l
    let pr := R r
    let lhs := pl.1
    let rhs := pr.1
    let lg := pl.2 ++ pr.2
    if rhs = .IntImm 0 then (lhs, lg)
    else foldFinish .Sub (.Sub l r) l r lhs rhs lg
  | .Mul l r =>
    let pl := R l
    let pr := R r
    let lhs := pl.1
    let rhs := pr.1
    let lg := pl.2 ++ pr.2
    if lhs = .IntImm 1 then (rhs, lg)
    else if rhs = .IntImm 1 then (lhs, lg)
    else if lhs = .FloatImm 1 then (rhs, lg)
    else if rhs = .FloatImm 1 then (lhs, lg)
    else mulBroadcastL (.Mul l r) l r lhs rhs lg
  | .Div l r =>
    let pl := R l
    let pr := R r
    let lhs := pl.1
    let rhs := pr.1
    let lg := pl.2 ++ pr.2
    if rhs = .IntImm 1 then (lhs, lg)
    else foldFinish .Div (.Div l r) l r lhs rhs lg
  | .Mod l r => binOpStep R .Mod (.Mod l r) l r
  | .And l r => binOpStep R .And (.And l r) l r
  | .Xor l r => binOpStep R .Xor (.Xor l r) l r
  | .Lshift l r => binOpStep R .Lshift (.Lshift l r) l r
  | .Rshift l r => binOpStep R .Rshift (.Rshift l r) l r
  | .Max l r pn => binOpStep R (fun a b => .Max a b pn) (.Max l r pn) l r
  | .Min l r pn => binOpStep R (fun a b => .Min a b pn) (.Min l r pn) l r
  | .Cast t s =>
    if isConstant s then (evaluateOp (.Cast t s), [.Cast t s])
    else (.Cast t s, [])
  | .Intrinsics op ps =>
    let rs := ps.map R
    let new_params := rs.map Prod.fst
    let lg := (rs.map Prod.snd).flatten
    let node := if new_params = ps then Expr.Intrinsics op ps else Expr.Intrinsics op new_params
    if new_params.all isConstant && isPureOp op then (evaluateOp node, lg ++ [node])
    else (node, lg)
  | .Load dt bn bt i m =>
    let pi := R i
    let pm := R m
    let lg := pi.2 ++ pm.2
    if pi.1 = i ∧ pm.1 = m then (.Load dt bn bt i m, lg)
    else (.Load dt bn bt pi.1 pm.1, lg)
  | .Broadcast v lanes =>
    let p := R v
    (if p.1 = v then .Broadcast v lanes else .Broadcast p.1 lanes, p.2)
  | .Ramp b s lanes =>
    let pb := R b
    let pq := R s
    (if pb.1 = b ∧ pq.1 = s then .Ramp b s lanes else .Ramp pb.1 pq.1 lanes, pb.2 ++ pq.2)
  | .Var n d => (.Var n d, [])
  | .IntImm n => (.IntImm n, [])
  | .FloatImm q => (.FloatImm q, [])

/-- Fuel-indexed iteration of `step`; `esize e` fuel always suffices
(`foldF_stable`), which makes the fixed point `foldP` well defined. -/
def foldF : Nat → Expr → FoldM
  | 0 => fun e => (e, [])
  | f+1 => fun e => step (foldF f) e

/-- The full mutator run on a node: result and `evaluateOp` call log. -/
def foldP (e : Expr) : FoldM := foldF (esize e) e

/-- The constant-folding pass: `e->accept_mutator(&ConstantFolder())`. -/
def fold (e : Expr) : Expr := (foldP e).1

/-- The arguments passed to `evaluateOp` during `fold e`, in call order. -/
def foldLog (e : Expr) : List Expr := (foldP e).2

mutual
/-- Modelled from the spec: well-formedness that the node constructors of
`ir.h` maintain for every expression the repository can build (§3: every
node carries a consistent dtype; binary operator nodes hold operands of the
node's own promoted dtype, a `Cast` keeps the lane count of its source, a
`Broadcast` replicates a scalar, a `Ramp`'s base and stride are scalars of
one type, and an intrinsic call is applied at its arity, float-typed for
the numeric intrinsics the evaluator interprets). -/
def WellTyped : Expr → Bool
  | .Var _ _ => true
  | .IntImm _ => true
  | .FloatImm _ => true
  | .Add l r => WellTyped l && WellTyped r && dtype l = dtype r
  | .Sub l r => WellTyped l && WellTyped r && dtype l = dtype r
  | .Mul l r => WellTyped l && WellTyped r && dtype l = dtype r
  | .Div l r => WellTyped l && WellTyped r && dtype l = dtype r
  | .Mod l r => WellTyped l && WellTyped r && dtype l = dtype r
  | .And l r => WellTyped l && WellTyped r && dtype l = dtype r
  | .Xor l r => WellTyped l && WellTyped r && dtype l = dtype r
  | .Lshift l r => WellTyped l && WellTyped r && dtype l = dtype r
  | .Rshift l r => WellTyped l && WellTyped r && dtype l = dtype r
  | .Max l r _ => WellTyped l && WellTyped r && dtype l = dtype r
  | .Min l r _ => WellTyped l && WellTyped r && dtype l = dtype r
  | .Cast t s => WellTyped s && t.lanes = (dtype s).lanes
  | .Broadcast v _ => WellTyped v && (dtype v).lanes = 1
  | .Ramp b s _ => WellTyped b && WellTyped s && dtype b = dtype s && (dtype b).lanes = 1
  | .Intrinsics op ps => wtIntr op ps
  | .Load _ _ _ i m => WellTyped i && WellTyped m
/-- Arity and parameter typing of an intrinsic call (see `WellTyped`). -/
def wtIntr : IntrinsicOp → List Expr → Bool
  | .sqrt, [p] => WellTyped p && dtype p = ⟨ScalarType.SFloat, 1⟩
  | .rand, [] => true
  | _, _ => false
end

mutual
/-- Whether every direct operand of a node is constant (the precondition
under which the pass may hand the node to `evaluateOp`). -/
def childrenConstant : Expr → Bool
  | .Add l r => isConstant l && isConstant r
  | .Sub l r => isConstant l && isConstant r
  | .Mul l r => isConstant l && isConstant r
  | .Div l r => isConstant l && isConstant r
  | .Mod l r => isConstant l && isConstant r
  | .And l r => isConstant l && isConstant r
  | .Xor l r => isConstant l && isConstant r
  | .Lshift l r => isConstant l && isConstant r
  | .Rshift l r => isConstant l && isConstant r
  | .Max l r _ => isConstant l && isConstant r
  | .Min l r _ => isConstant l && isConstant r
  | .Cast _ s => isConstant s
  | .Broadcast v _ => isConstant v
  | .Ramp b s _ => isConstant b && isConstant s
  | .Intrinsics _ ps => ccL ps
  | .Load _ _ _ i m => isConstant i && isConstant m
  | _ => true
/-- All members constant (see `childrenConstant`). -/
def ccL : List Expr → Bool
  | [] => true
  | p :: ps => isConstant p && ccL ps
end

mutual
/-- The expression grammar of the full-constant-collapse property: built
entirely from immediates, the eleven binary operators and pure intrinsic
calls; no free variables, no `Load` (and no `Cast`, `Broadcast` or
`Ramp`). -/
def pureConstExpr : Expr → Bool
  | .IntImm _ => true
  | .FloatImm _ => true
  | .Add l r => pureConstExpr l && pureConstExpr r
  | .Sub l r => pureConstExpr l && pureConstExpr r
  | .Mul l r => pureConstExpr l && pureConstExpr r
  | .Div l r => pureConstExpr l && pureConstExpr r
  | .Mod l r => pureConstExpr l && pureConstExpr r
  | .And l r => pureConstExpr l && pureConstExpr r
  | .Xor l r => pureConstExpr l && pureConstExpr r
  | .Lshift l r => pureConstExpr l && pureConstExpr r
  | .Rshift l r => pureConstExpr l && pureConstExpr r
  | .Max l r _ => pureConstExpr l && pureConstExpr r
  | .Min l r _ => pureConstExpr l && pureConstExpr r
  | .Intrinsics op ps => isPureOp op && pureConstExprL ps
  | _ => false
/-- All members in the full-constant grammar (see `pureConstExpr`). -/
def pureConstExprL : List Expr → Bool
  | [] => true
  | p :: ps => pureConstExpr p && pureConstExprL ps
end

/-- A non-constant expression whose fold is constant: adding a zero
`Broadcast` (never itself constant) to the constant `7` eliminates the
`Broadcast`, leaving the constant right operand. -/
def castCounterSrc : Expr := .Add (.Broadcast (.IntImm 0) 1) (.IntImm 7)

/-- Whether a node is a `Broadcast` of the integer immediate `0`. -/
def isBroadcastOf0 : Expr → Bool
  | .Broadcast v _ => v = .IntImm 0
  | _ => false

/-- Whether a node is a `Broadcast` of the integer immediate `1`. -/
def isBroadcastOf1 : Expr → Bool
  | .Broadcast v _ => v = .IntImm 1
  | _ => false

/-- Whether a node is a `Broadcast`. -/
def isBroadcast : Expr → Bool
  | .Broadcast _ _ => true
  | _ => false

/-- Whether a node is a `Ramp`. -/
def isRamp : Expr → Bool
  | .Ramp _ _ _ => true
  | _ => false

/-- The property every argument handed to `evaluateOp` must satisfy: all of
its direct operands are constant and, for an intrinsic call, the operation
is pure. -/
def evalCallOK (n : Expr) : Prop :=
  childrenConstant n = true ∧ ∀ op ps, n = .Intrinsics op ps → isPureOp op = true


theorem esize_pos : ∀ e : Expr, 1 ≤ esize e := by
  intro e
  cases e <;> simp [esize] <;> try omega

theorem esizeL_mem : ∀ (ps : List Expr) (p : Expr), p ∈ ps → esize p ≤ esizeL ps := by
  intro ps
  induction ps with
  | nil => intro p h; cases h
  | cons q qs ih =>
    intro p h
    rcases List.mem_cons.mp h with h1 | h2
    · subst h1; simp [esizeL]; try omega
    · have := ih p h2
      simp [esizeL]
      omega

theorem evaluateOp_isImm (v : Expr) : isImm (evaluateOp v) = true := by
  unfold evaluateOp
  cases (dtype v).scalar <;> simp [isImm]

theorem esize_evaluateOp (v : Expr) : esize (evaluateOp v) = 1 := by
  unfold evaluateOp
  cases (dtype v).scalar <;> simp [esize]

theorem dtype_evaluateOp (v : Expr) : dtype (evaluateOp v) = ⟨(dtype v).scalar, 1⟩ := by
  unfold evaluateOp
  cases h : (dtype v).scalar <;> simp [dtype, h]

theorem foldFinish_fst_size {mk : Expr → Expr → Expr} {orig l r lhs rhs : Expr}
    {lg : List Expr} {n : Nat}
    (hmk : esize (mk lhs rhs) ≤ n) (horig : esize orig ≤ n) (hn : 1 ≤ n) :
    esize (foldFinish mk orig l r lhs rhs lg).1 ≤ n := by
  unfold foldFinish
  split <;> split <;> simp [esize_evaluateOp] <;> try omega

theorem addRampR_fst_size (R : Expr → FoldM)
    (hR : ∀ x, esize (R x).1 ≤ esize x) (l r lhs rhs : Expr) (lg : List Expr)
    (hl : esize lhs ≤ esize l) (hr : esize rhs ≤ esize r) :
    esize (addRampR R (.Add l r) l r lhs rhs lg).1 ≤ 1 + esize l + esize r := by
  have hfin : ∀ rhs2 : Expr, esize rhs2 ≤ esize r →
      esize (foldFinish Expr.Add (.Add l r) l r lhs rhs2 lg).1 ≤ 1 + esize l + esize r := by
    intro rhs2 hr2
    exact foldFinish_fst_size (by simp [esize]; omega) (by simp [esize]) (by omega)
  cases rhs
  case Broadcast bv lanes =>
    have hbr : 1 + esize bv ≤ esize r := by simp [esize] at hr; omega
    simp only [addRampR]
    split
    · simpa using hl.trans (by omega)
    · cases lhs
      case Ramp base stride lanes2 =>
        have hlr : 1 + esize base + esize stride ≤ esize l := by simp [esize] at hl; omega
        have hX := hR (.Ramp (.Add bv base) stride lanes2)
        simp only [esize] at hX
        show esize (R (.Ramp (.Add bv base) stride lanes2)).1 ≤ _
        omega
      all_goals exact hfin _ hr
  all_goals (simp only [addRampR]; exact hfin _ hr)

theorem addRampL_fst_size (R : Expr → FoldM)
    (hR : ∀ x, esize (R x).1 ≤ esize x) (l r lhs rhs : Expr) (lg : List Expr)
    (hl : esize lhs ≤ esize l) (hr : esize rhs ≤ esize r) :
    esize (addRampL R (.Add l r) l r lhs rhs lg).1 ≤ 1 + esize l + esize r := by
  cases lhs
  case Broadcast bv lanes =>
    have hbl : 1 + esize bv ≤ esize l := by simp [esize] at hl; omega
    simp only [addRampL]
    split
    · simpa using hr.trans (by omega)
    · cases rhs
      case Ramp base stride lanes2 =>
        have hrr : 1 + esize base + esize stride ≤ esize r := by simp [esize] at hr; omega
        have hX := hR (.Ramp (.Add bv base) stride lanes2)
        simp only [esize] at hX
        show esize (R (.Ramp (.Add bv base) stride lanes2)).1 ≤ _
        omega
      all_goals exact addRampR_fst_size R hR l r _ _ lg hl hr
  all_goals (simp only [addRampL]; exact addRampR_fst_size R hR l r _ _ lg hl hr)

theorem mulBroadcastR_fst_size (l r lhs rhs : Expr) (lg : List Expr)
    (hl : esize lhs ≤ esize l) (hr : esize rhs ≤ esize r) :
    esize (mulBroadcastR (.Mul l r) l r lhs rhs lg).1 ≤ 1 + esize l + esize r := by
  have hfin : esize (foldFinish Expr.Mul (.Mul l r) l r lhs rhs lg).1 ≤ 1 + esize l + esize r :=
    foldFinish_fst_size (by simp [esize]; omega) (by simp [esize]) (by omega)
  cases rhs
  case Broadcast bv lanes =>
    simp only [mulBroadcastR]
    split
    · simpa using hl.trans (by omega)
    · exact hfin
  all_goals (simp only [mulBroadcastR]; exact hfin)

theorem mulBroadcastL_fst_size (l r lhs rhs : Expr) (lg : List Expr)
    (hl : esize lhs ≤ esize l) (hr : esize rhs ≤ esize r) :
    esize (mulBroadcastL (.Mul l r) l r lhs rhs lg).1 ≤ 1 + esize l + esize r := by
  cases lhs
  case Broadcast bv lanes =>
    simp only [mulBroadcastL]
    split
    · simpa using hr.trans (by omega)
    · exact mulBroadcastR_fst_size l r _ _ lg hl hr
  all_goals (simp only [mulBroadcastL]; exact mulBroadcastR_fst_size l r _ _ lg hl hr)

theorem binOpStep_fst_size (R : Expr → FoldM) (mk : Expr → Expr → Expr) (l r : Expr)
    (orig : Expr)
    (hR : ∀ x, esize (R x).1 ≤ esize x)
    (hmk : ∀ a b, esize (mk a b) = 1 + esize a + esize b)
    (horig : esize orig = 1 + esize l + esize r) :
    esize (binOpStep R mk orig l r).1 ≤ 1 + esize l + esize r := by
  unfold binOpStep
  exact foldFinish_fst_size
    (by rw [hmk]; have := hR l; have := hR r; omega)
    (by omega)
    (by omega)

theorem esizeL_map_fst (R : Expr → FoldM) (hR : ∀ x, esize (R x).1 ≤ esize x) :
    ∀ ps : List Expr, esizeL (List.map Prod.fst (List.map R ps)) ≤ esizeL ps := by
  intro ps
  induction ps with
  | nil => simp [esizeL]
  | cons p ps ih =>
    have := hR p
    simp only [List.map_cons, esizeL]
    omega

theorem step_fst_size (R : Expr → FoldM) (hR : ∀ x, esize (R x).1 ≤ esize x) :
    ∀ e : Expr, esize (step R e).1 ≤ esize e := by
  intro e
  cases e
  case Add l r =>
    simp only [step]
    split
    · have := hR r
      have := esize_pos l
      simp only [esize]
      omega
    · split
      · have := hR l
        have := esize_pos r
        simp only [esize]
        omega
      · simpa only [esize] using addRampL_fst_size R hR l r _ _ _ (hR l) (hR r)
  case Sub l r =>
    simp only [step]
    split
    · have := hR l
      have := esize_pos r
      simp only [esize]
      omega
    · simpa only [esize] using @foldFinish_fst_size Expr.Sub _ _ _ _ _ _
        (1 + esize l + esize r)
        (by have := hR l; have := hR r; simp [esize]; omega) (by simp [esize]) (by omega)
  case Mul l r =>
    simp only [step]
    split
    · have := hR r
      have := esize_pos l
      simp only [esize]
      omega
    · split
      · have := hR l
        have := esize_pos r
        simp only [esize]
        omega
      · split
        · have := hR r
          have := esize_pos l
          simp only [esize]
          omega
        · split
          · have := hR l
            have := esize_pos r
            simp only [esize]
            omega
          · simpa only [esize] using mulBroadcastL_fst_size l r _ _ _ (hR l) (hR r)
  case Div l r =>
    simp only [step]
    split
    · have := hR l
      have := esize_pos r
      simp only [esize]
      omega
    · simpa only [esize] using @foldFinish_fst_size Expr.Div _ _ _ _ _ _
        (1 + esize l + esize r)
        (by have := hR l; have := hR r; simp [esize]; omega) (by simp [esize]) (by omega)
  case Mod l r =>
    simpa only [esize] using binOpStep_fst_size R Expr.Mod l r _ hR
      (by intro a b; simp [esize]; try omega) (by simp [esize]; try omega)
  case And l r =>
    simpa only [esize] using binOpStep_fst_size R Expr.And l r _ hR
      (by intro a b; simp [esize]; try omega) (by simp [esize]; try omega)
  case Xor l r =>
    simpa only [esize] using binOpStep_fst_size R Expr.Xor l r _ hR
      (by intro a b; simp [esize]; try omega) (by simp [esize]; try omega)
  case Lshift l r =>
    simpa only [esize] using binOpStep_fst_size R Expr.Lshift l r _ hR
      (by intro a b; simp [esize]; try omega) (by simp [esize]; try omega)
  case Rshift l r =>
    simpa only [esize] using binOpStep_fst_size R Expr.Rshift l r _ hR
      (by intro a b; simp [esize]; try omega) (by simp [esize]; try omega)
  case Max l r pn =>
    simpa only [esize] using binOpStep_fst_size R (fun a b => Expr.Max a b pn) l r _ hR
      (by intro a b; simp [esize]; try omega) (by simp [esize]; try omega)
  case Min l r pn =>
    simpa only [esize] using binOpStep_fst_size R (fun a b => Expr.Min a b pn) l r _ hR
      (by intro a b; simp [esize]; try omega) (by simp [esize]; try omega)
  case Cast t s =>
    simp only [step]
    split
    · have := esize_pos s
      simp only [esize_evaluateOp, esize]
      omega
    · simp [esize]
  case Intrinsics op ps =>
    have hmap := esizeL_map_fst R hR ps
    simp only [step]
    split
    · have := esize_pos (Expr.Intrinsics op ps)
      split <;> simp only [esize_evaluateOp, esize] <;> omega
    · split <;> simp only [esize] <;> omega
  case Load dt bn bt i m =>
    simp only [step]
    split
    · simp [esize]
    · have := hR i
      have := hR m
      simp only [esize]
      omega
  case Broadcast v lanes =>
    simp only [step]
    split
    · simp [esize]
    · have := hR v
      simp only [esize]
      omega
  case Ramp b s lanes =>
    simp only [step]
    split
    · simp [esize]
    · have := hR b
      have := hR s
      simp only [esize]
      omega
  case Var n d => simp [step, esize]
  case IntImm n => simp [step, esize]
  case FloatImm q => simp [step, esize]

theorem foldF_fst_size : ∀ (f : Nat) (e : Expr), esize (foldF f e).1 ≤ esize e := by
  intro f
  induction f with
  | zero => intro e; simp [foldF]
  | succ f ih => intro e; exact step_fst_size (foldF f) ih e

theorem addRampR_congr (R1 R2 : Expr → FoldM) (m : Nat)
    (hag : ∀ x, esize x ≤ m → R1 x = R2 x)
    (l r lhs rhs : Expr) (lg : List Expr)
    (hl : esize lhs ≤ esize l) (hr : esize rhs ≤ esize r)
    (hm : esize l + esize r ≤ m) :
    addRampR R1 (.Add l r) l r lhs rhs lg = addRampR R2 (.Add l r) l r lhs rhs lg := by
  cases rhs
  case Broadcast bv lanes =>
    simp only [addRampR]
    split
    · rfl
    · cases lhs
      case Ramp base stride lanes2 =>
        have hX : esize (Expr.Ramp (.Add bv base) stride lanes2) ≤ m := by
          simp [esize] at hl hr ⊢
          omega
        simp only [hag _ hX]
      all_goals rfl
  all_goals rfl

theorem addRampL_congr (R1 R2 : Expr → FoldM) (m : Nat)
    (hag : ∀ x, esize x ≤ m → R1 x = R2 x)
    (l r lhs rhs : Expr) (lg : List Expr)
    (hl : esize lhs ≤ esize l) (hr : esize rhs ≤ esize r)
    (hm : esize l + esize r ≤ m) :
    addRampL R1 (.Add l r) l r lhs rhs lg = addRampL R2 (.Add l r) l r lhs rhs lg := by
  cases lhs
  case Broadcast bv lanes =>
    simp only [addRampL]
    split
    · rfl
    · cases rhs
      case Ramp base stride lanes2 =>
        have hX : esize (Expr.Ramp (.Add bv base) stride lanes2) ≤ m := by
          simp [esize] at hl hr ⊢
          omega
        simp only [hag _ hX]
      all_goals exact addRampR_congr R1 R2 m hag l r _ _ lg hl hr hm
  all_goals (simp only [addRampL]; exact addRampR_congr R1 R2 m hag l r _ _ lg hl hr hm)

theorem step_congr (R1 R2 : Expr → FoldM) (m : Nat)
    (hR1 : ∀ x, esize (R1 x).1 ≤ esize x)
    (hag : ∀ x, esize x ≤ m → R1 x = R2 x) :
    ∀ e : Expr, esize e ≤ m + 1 → step R1 e = step R2 e := by
  intro e he
  cases e
  case Add l r =>
    have hl : esize l ≤ m := by simp [esize] at he; omega
    have hr : esize r ≤ m := by simp [esize] at he; omega
    have h2l : esize (R2 l).1 ≤ esize l := by rw [← hag l hl]; exact hR1 l
    have h2r : esize (R2 r).1 ≤ esize r := by rw [← hag r hr]; exact hR1 r
    have haux := addRampL_congr R1 R2 m hag l r (R2 l).1 (R2 r).1
      ((R2 l).2 ++ (R2 r).2) h2l h2r (by simp [esize] at he; omega)
    simp only [step, hag l hl, hag r hr, haux]
  case Sub l r =>
    have hl : esize l ≤ m := by simp [esize] at he; omega
    have hr : esize r ≤ m := by simp [esize] at he; omega
    simp only [step, hag l hl, hag r hr]
  case Mul l r =>
    have hl : esize l ≤ m := by simp [esize] at he; omega
    have hr : esize r ≤ m := by simp [esize] at he; omega
    simp only [step, hag l hl, hag r hr]
  case Div l r =>
    have hl : esize l ≤ m := by simp [esize] at he; omega
    have hr : esize r ≤ m := by simp [esize] at he; omega
    simp only [step, hag l hl, hag r hr]
  case Mod l r =>
    have hl : esize l ≤ m := by simp [esize] at he; omega
    have hr : esize r ≤ m := by simp [esize] at he; omega
    simp only [step, binOpStep, hag l hl, hag r hr]
  case And l r =>
    have hl : esize l ≤ m := by simp [esize] at he; omega
    have hr : esize r ≤ m := by simp [esize] at he; omega
    simp only [step, binOpStep, hag l hl, hag r hr]
  case Xor l r =>
    have hl : esize l ≤ m := by simp [esize] at he; omega
    have hr : esize r ≤ m := by simp [esize] at he; omega
    simp only [step, binOpStep, hag l hl, hag r hr]
  case Lshift l r =>
    have hl : esize l ≤ m := by simp [esize] at he; omega
    have hr : esize r ≤ m := by simp [esize] at he; omega
    simp only [step, binOpStep, hag l hl, hag r hr]
  case Rshift l r =>
    have hl : esize l ≤ m := by simp [esize] at he; omega
    have hr : esize r ≤ m := by simp [esize] at he; omega
    simp only [step, binOpStep, hag l hl, hag r hr]
  case Max l r pn =>
    have hl : esize l ≤ m := by simp [esize] at he; omega
    have hr : esize r ≤ m := by simp [esize] at he; omega
    simp only [step, binOpStep, hag l hl, hag r hr]
  case Min l r pn =>
    have hl : esize l ≤ m := by simp [esize] at he; omega
    have hr : esize r ≤ m := by simp [esize] at he; omega
    simp only [step, binOpStep, hag l hl, hag r hr]
  case Cast t s => rfl
  case Intrinsics op ps =>
    have hmap : List.map R1 ps = List.map R2 ps := by
      apply List.map_congr_left
      intro p hp
      apply hag p
      have h1 := esizeL_mem ps p hp
      simp [esize] at he
      omega
    simp only [step, hmap]
  case Load dt bn bt i j =>
    have hi : esize i ≤ m := by simp [esize] at he; omega
    have hj : esize j ≤ m := by simp [esize] at he; omega
    simp only [step, hag i hi, hag j hj]
  case Broadcast v lanes =>
    have hv : esize v ≤ m := by simp [esize] at he; omega
    simp only [step, hag v hv]
  case Ramp b s lanes =>
    have hb : esize b ≤ m := by simp [esize] at he; omega
    have hs : esize s ≤ m := by simp [esize] at he; omega
    simp only [step, hag b hb, hag s hs]
  case Var n d => rfl
  case IntImm n => rfl
  case FloatImm q => rfl

theorem foldF_congr_fuel : ∀ (f1 f2 : Nat) (e : Expr),
    esize e ≤ f1 → esize e ≤ f2 → foldF f1 e = foldF f2 e := by
  intro f1
  induction f1 using Nat.strong_induction_on with
  | _ f1 ih =>
    intro f2 e h1 h2
    have hp := esize_pos e
    match f1, f2 with
    | 0, _ => omega
    | _+1, 0 => omega
    | g1+1, g2+1 =>
      show step (foldF g1) e = step (foldF g2) e
      apply step_congr (foldF g1) (foldF g2) (min g1 g2) (foldF_fst_size g1) ?_ e (by omega)
      intro x hx
      exact ih g1 (by omega) g2 x (by omega) (by omega)

theorem foldP_step (e : Expr) : foldP e = step foldP e := by
  have hp := esize_pos e
  obtain ⟨s, hs⟩ : ∃ s, esize e = s + 1 := ⟨esize e - 1, by omega⟩
  show foldF (esize e) e = step foldP e
  rw [hs]
  show step (foldF s) e = step foldP e
  apply step_congr (foldF s) foldP s (foldF_fst_size s) ?_ e (by omega)
  intro x hx
  exact foldF_congr_fuel s (esize x) x hx le_rfl

theorem fold_size (e : Expr) : esize (fold e) ≤ esize e := foldF_fst_size (esize e) e

theorem foldP_pair (e : Expr) : foldP e = (fold e, foldLog e) := rfl

theorem foldP_fst (e : Expr) : (foldP e).1 = fold e := rfl

theorem foldP_snd (e : Expr) : (foldP e).2 = foldLog e := rfl

theorem fold_eq_step (e : Expr) : fold e = (step foldP e).1 :=
  congrArg Prod.fst (foldP_step e)

theorem foldLog_eq_step (e : Expr) : foldLog e = (step foldP e).2 :=
  congrArg Prod.snd (foldP_step e)

/-- C6: folding a `Load` recursively processes only the index and the mask
(the base handle is carried over untouched), never yields an immediate, and
returns the original node itself when folding changes neither index nor
mask. -/
theorem c6_load_frame (dt : Dtype) (bn : String) (bt : Dtype) (i m : Expr) :
    fold (.Load dt bn bt i m)
      = (if fold i = i ∧ fold m = m then .Load dt bn bt i m
         else .Load dt bn bt (fold i) (fold m))
    ∧ isImm (fold (.Load dt bn bt i m)) = false := by
  have h1 := fold_eq_step (.Load dt bn bt i m)
  simp only [step, foldP_fst, foldP_snd] at h1
  constructor
  · rw [h1]
    split <;> rfl
  · rw [h1]
    split <;> simp [isImm]

/-- C10: a `Cast` whose source is not constant is returned as the very same
node; the pass does not recurse into (and hence never rewrites anything
below) the source of such a cast. -/
theorem c10_cast_nonconst_frame (t : Dtype) (s : Expr) (h : isConstant s = false) :
    fold (.Cast t s) = .Cast t s := by
  rw [fold_eq_step]
  simp [step, h]

theorem c10_cast_nonconst_frame_witness :
    isConstant (.Var "x" ⟨.SInt, 1⟩) = false ∧
    fold (.Cast ⟨.SFloat, 1⟩ (.Var "x" ⟨.SInt, 1⟩)) = .Cast ⟨.SFloat, 1⟩ (.Var "x" ⟨.SInt, 1⟩) :=
  ⟨by decide, c10_cast_nonconst_frame ⟨.SFloat, 1⟩ (.Var "x" ⟨.SInt, 1⟩) (by decide)⟩

/-- C3 (amended): folding a `Cast` tests the constancy of the original,
unfolded source: when that source is constant, the evaluator is invoked on
the cast, otherwise the cast is returned unchanged; the source operand is
not folded first. -/
theorem c3_cast_checks_unfolded_source (t : Dtype) (s : Expr) :
    fold (.Cast t s) = if isConstant s then evaluateOp (.Cast t s) else .Cast t s := by
  rw [fold_eq_step]
  simp only [step, apply_ite Prod.fst]

/-- C3 (counterexample): at `Cast(Float, Broadcast(0,1) + 7)` the folded
source is the constant `7`, so the claimed behaviour (fold the source
first, then evaluate if the rewritten source is constant) would produce an
immediate, but the pass returns the cast unchanged — `mutate(Cast)` never
folds its source. -/
theorem c3_counterexample :
    isConstant castCounterSrc = false ∧
    isConstant (fold castCounterSrc) = true ∧
    fold (.Cast ⟨.SFloat, 1⟩ castCounterSrc) = .Cast ⟨.SFloat, 1⟩ castCounterSrc ∧
    fold (.Cast ⟨.SFloat, 1⟩ castCounterSrc)
      ≠ (if isConstant (fold castCounterSrc)
         then evaluateOp (.Cast ⟨.SFloat, 1⟩ (fold castCounterSrc))
         else .Cast ⟨.SFloat, 1⟩ castCounterSrc) := by
  refine ⟨by decide, by decide, by decide, ?_⟩
  intro h
  exact absurd h (by decide)

/-- C9 (amended): the operator factory constructs a node for each of the
eleven binary operator kinds and fails for every other kind, but the
condition it raises is the evaluator's `UnsupportedDtype`
(`unsupported_dtype()` in the `default:` arm), not a distinct
`UnsupportedOperator`. -/
theorem c9_factory (k : IRNodeType) (l r : Expr) (o : Bool) :
    (isBinaryOpKind k = true → ∃ node : Expr, newBinaryOpOfType k l r o = .ok node) ∧
    (isBinaryOpKind k = false →
      newBinaryOpOfType k l r o = .error .unsupportedDtype) := by
  cases k <;> simp [isBinaryOpKind, newBinaryOpOfType]

theorem c9_factory_witness :
    (∃ node : Expr, newBinaryOpOfType .kAdd (.IntImm 1) (.IntImm 2) false = .ok node) ∧
    newBinaryOpOfType .kCast (.IntImm 1) (.IntImm 2) false
      = .error .unsupportedDtype :=
  ⟨(c9_factory .kAdd (.IntImm 1) (.IntImm 2) false).1 rfl,
   (c9_factory .kCast (.IntImm 1) (.IntImm 2) false).2 rfl⟩

/-- C9 (counterexample): for a kind outside the enumeration the factory
does not raise the distinct `UnsupportedOperator` condition the claim
names; it raises `UnsupportedDtype`. -/
theorem c9_counterexample :
    newBinaryOpOfType .kCast (.IntImm 0) (.IntImm 0) false
      ≠ Except.error FoldError.unsupportedOperator ∧
    newBinaryOpOfType .kCast (.IntImm 0) (.IntImm 0) false
      = Except.error FoldError.unsupportedDtype := by
  constructor
  · intro h
    simp [newBinaryOpOfType] at h
  · simp [newBinaryOpOfType]

/-- C5: when the folded operands of an `Add` are a `Broadcast` and a `Ramp`
(either way round, and the broadcast value is not the zero immediate, which
an earlier rule would have eliminated), the pass builds
`Ramp(b + base, stride, lanes)` and re-folds the newly built expression
before returning it. -/
theorem c5_add_broadcast_ramp :
    (∀ (l r bv base stride : Expr) (L1 L2 : Nat),
      fold l = .Broadcast bv L1 → fold r = .Ramp base stride L2 → bv ≠ .IntImm 0 →
      fold (.Add l r) = fold (.Ramp (.Add bv base) stride L2)) ∧
    (∀ (l r bv base stride : Expr) (L1 L2 : Nat),
      fold l = .Ramp base stride L1 → fold r = .Broadcast bv L2 → bv ≠ .IntImm 0 →
      fold (.Add l r) = fold (.Ramp (.Add bv base) stride L1)) := by
  constructor
  · intro l r bv base stride L1 L2 hl hr hbv
    have hl' : (foldP l).1 = .Broadcast bv L1 := hl
    have hr' : (foldP r).1 = .Ramp base stride L2 := hr
    rw [fold_eq_step]
    simp only [step, hl', hr']
    rw [if_neg (by simp), if_neg (by simp)]
    simp only [addRampL]
    rw [if_neg hbv]
    rfl
  · intro l r bv base stride L1 L2 hl hr hbv
    have hl' : (foldP l).1 = .Ramp base stride L1 := hl
    have hr' : (foldP r).1 = .Broadcast bv L2 := hr
    rw [fold_eq_step]
    simp only [step, hl', hr']
    rw [if_neg (by simp), if_neg (by simp)]
    simp only [addRampL, addRampR]
    rw [if_neg hbv]
    rfl

theorem c5_add_broadcast_ramp_witness :
    fold (.Broadcast (.IntImm 5) 4) = .Broadcast (.IntImm 5) 4 ∧
    fold (.Ramp (.Var "i" ⟨.SInt, 1⟩) (.IntImm 1) 4)
      = .Ramp (.Var "i" ⟨.SInt, 1⟩) (.IntImm 1) 4 ∧
    fold (.Add (.Broadcast (.IntImm 5) 4) (.Ramp (.Var "i" ⟨.SInt, 1⟩) (.IntImm 1) 4))
      = fold (.Ramp (.Add (.IntImm 5) (.Var "i" ⟨.SInt, 1⟩)) (.IntImm 1) 4) :=
  ⟨by decide, by decide,
   c5_add_broadcast_ramp.1 (.Broadcast (.IntImm 5) 4)
     (.Ramp (.Var "i" ⟨.SInt, 1⟩) (.IntImm 1) 4) (.IntImm 5) (.Var "i" ⟨.SInt, 1⟩)
     (.IntImm 1) 4 4 (by decide) (by decide) (by decide)⟩

theorem foldFinish_eq (mk : Expr → Expr → Expr) (orig l r lhs rhs : Expr) (lg : List Expr)
    (horig : orig = mk l r) :
    foldFinish mk orig l r lhs rhs lg
      = (if isConstant lhs && isConstant rhs
         then (evaluateOp (mk lhs rhs), lg ++ [mk lhs rhs])
         else (mk lhs rhs, lg)) := by
  unfold foldFinish
  have hnode : (if lhs = l ∧ rhs = r then orig else mk lhs rhs) = mk lhs rhs := by
    split
    case isTrue h => rw [horig, h.1, h.2]
    case isFalse h => rfl
  rw [hnode]

theorem binOpStep_eq (mk : Expr → Expr → Expr) (orig l r : Expr) (horig : orig = mk l r) :
    binOpStep foldP mk orig l r
      = (if isConstant (fold l) && isConstant (fold r)
         then (evaluateOp (mk (fold l) (fold r)),
               (foldLog l ++ foldLog r) ++ [mk (fold l) (fold r)])
         else (mk (fold l) (fold r), foldLog l ++ foldLog r)) := by
  unfold binOpStep
  exact foldFinish_eq mk orig l r (fold l) (fold r) (foldLog l ++ foldLog r) horig

theorem foldP_var (n : String) (d : Dtype) : foldP (.Var n d) = (.Var n d, []) := by
  rw [foldP_step]
  rfl

theorem foldP_int (n : Int) : foldP (.IntImm n) = (.IntImm n, []) := by
  rw [foldP_step]
  rfl

theorem foldP_float (q : Rat) : foldP (.FloatImm q) = (.FloatImm q, []) := by
  rw [foldP_step]
  rfl

theorem foldP_broadcast (v : Expr) (L : Nat) :
    foldP (.Broadcast v L) = (.Broadcast (fold v) L, foldLog v) := by
  rw [foldP_step]
  simp only [step, foldP_fst, foldP_snd]
  split
  case isTrue h => rw [h]
  case isFalse h => rfl

theorem foldP_ramp (b s : Expr) (L : Nat) :
    foldP (.Ramp b s L) = (.Ramp (fold b) (fold s) L, foldLog b ++ foldLog s) := by
  rw [foldP_step]
  simp only [step, foldP_fst, foldP_snd]
  split
  case isTrue h => rw [h.1, h.2]
  case isFalse h => rfl

theorem foldP_load (dt : Dtype) (bn : String) (bt : Dtype) (i m : Expr) :
    foldP (.Load dt bn bt i m)
      = (.Load dt bn bt (fold i) (fold m), foldLog i ++ foldLog m) := by
  rw [foldP_step]
  simp only [step, foldP_fst, foldP_snd]
  split
  case isTrue h => rw [h.1, h.2]
  case isFalse h => rfl

theorem foldP_cast (t : Dtype) (s : Expr) :
    foldP (.Cast t s)
      = (if isConstant s then (evaluateOp (.Cast t s), [.Cast t s]) else (.Cast t s, [])) := by
  rw [foldP_step]
  rfl

theorem foldP_intrinsics (op : IntrinsicOp) (ps : List Expr) :
    foldP (.Intrinsics op ps)
      = (if (List.map fold ps).all isConstant && isPureOp op
         then (evaluateOp (.Intrinsics op (List.map fold ps)),
               (List.map foldLog ps).flatten ++ [.Intrinsics op (List.map fold ps)])
         else (.Intrinsics op (List.map fold ps), (List.map foldLog ps).flatten)) := by
  rw [foldP_step]
  simp only [step, List.map_map]
  have h1 : Prod.fst ∘ foldP = fold := rfl
  have h2 : Prod.snd ∘ foldP = foldLog := rfl
  rw [h1, h2]
  have hnode : (if List.map fold ps = ps then Expr.Intrinsics op ps
      else Expr.Intrinsics op (List.map fold ps)) = Expr.Intrinsics op (List.map fold ps) := by
    split
    case isTrue h => rw [h]
    case isFalse h => rfl
  rw [hnode]

theorem foldP_sub (l r : Expr) :
    foldP (.Sub l r)
      = (if fold r = .IntImm 0 then (fold l, foldLog l ++ foldLog r)
         else if isConstant (fold l) && isConstant (fold r)
         then (evaluateOp (.Sub (fold l) (fold r)),
               (foldLog l ++ foldLog r) ++ [.Sub (fold l) (fold r)])
         else (.Sub (fold l) (fold r), foldLog l ++ foldLog r)) := by
  rw [foldP_step]
  simp only [step, foldP_fst, foldP_snd]
  rw [foldFinish_eq _ _ _ _ _ _ _ rfl]

theorem foldP_div (l r : Expr) :
    foldP (.Div l r)
      = (if fold r = .IntImm 1 then (fold l, foldLog l ++ foldLog r)
         else if isConstant (fold l) && isConstant (fold r)
         then (evaluateOp (.Div (fold l) (fold r)),
               (foldLog l ++ foldLog r) ++ [.Div (fold l) (fold r)])
         else (.Div (fold l) (fold r), foldLog l ++ foldLog r)) := by
  rw [foldP_step]
  simp only [step, foldP_fst, foldP_snd]
  rw [foldFinish_eq _ _ _ _ _ _ _ rfl]

theorem foldP_add (l r : Expr) :
    foldP (.Add l r)
      = (if fold l = .IntImm 0 then (fold r, foldLog l ++ foldLog r)
         else if fold r = .IntImm 0 then (fold l, foldLog l ++ foldLog r)
         else addRampL foldP (.Add l r) l r (fold l) (fold r) (foldLog l ++ foldLog r)) := by
  rw [foldP_step]
  rfl

theorem foldP_mul (l r : Expr) :
    foldP (.Mul l r)
      = (if fold l = .IntImm 1 then (fold r, foldLog l ++ foldLog r)
         else if fold r = .IntImm 1 then (fold l, foldLog l ++ foldLog r)
         else if fold l = .FloatImm 1 then (fold r, foldLog l ++ foldLog r)
         else if fold r = .FloatImm 1 then (fold l, foldLog l ++ foldLog r)
         else mulBroadcastL (.Mul l r) l r (fold l) (fold r) (foldLog l ++ foldLog r)) := by
  rw [foldP_step]
  rfl

theorem foldP_mod (l r : Expr) : foldP (.Mod l r) = binOpStep foldP .Mod (.Mod l r) l r := by
  rw [foldP_step]
  rfl

theorem foldP_and (l r : Expr) : foldP (.And l r) = binOpStep foldP .And (.And l r) l r := by
  rw [foldP_step]
  rfl

theorem foldP_xor (l r : Expr) : foldP (.Xor l r) = binOpStep foldP .Xor (.Xor l r) l r := by
  rw [foldP_step]
  rfl

theorem foldP_lshift (l r : Expr) :
    foldP (.Lshift l r) = binOpStep foldP .Lshift (.Lshift l r) l r := by
  rw [foldP_step]
  rfl

theorem foldP_rshift (l r : Expr) :
    foldP (.Rshift l r) = binOpStep foldP .Rshift (.Rshift l r) l r := by
  rw [foldP_step]
  rfl

theorem foldP_max (l r : Expr) (pn : Bool) :
    foldP (.Max l r pn) = binOpStep foldP (fun a b => .Max a b pn) (.Max l r pn) l r := by
  rw [foldP_step]
  rfl

theorem foldP_min (l r : Expr) (pn : Bool) :
    foldP (.Min l r pn) = binOpStep foldP (fun a b => .Min a b pn) (.Min l r pn) l r := by
  rw [foldP_step]
  rfl

theorem addRampR_cases (R : Expr → FoldM) (orig l r lhs rhs : Expr) (lg : List Expr) :
    (isBroadcastOf0 rhs = true ∧ addRampR R orig l r lhs rhs lg = (lhs, lg))
    ∨ (∃ bv L base stride L2, rhs = .Broadcast bv L ∧ bv ≠ .IntImm 0 ∧
        lhs = .Ramp base stride L2 ∧
        addRampR R orig l r lhs rhs lg
          = ((R (.Ramp (.Add bv base) stride L2)).1,
             lg ++ (R (.Ramp (.Add bv base) stride L2)).2))
    ∨ (isBroadcastOf0 rhs = false ∧ (isBroadcast rhs && isRamp lhs) = false ∧
        addRampR R orig l r lhs rhs lg = foldFinish .Add orig l r lhs rhs lg) := by
  cases rhs
  case Broadcast bv L =>
    cases lhs
    case Ramp base stride L2 =>
      by_cases hbv : bv = .IntImm 0
      · subst hbv
        left
        exact ⟨by simp [isBroadcastOf0], by simp [addRampR]⟩
      · right; left
        exact ⟨bv, L, base, stride, L2, rfl, hbv, rfl, by simp [addRampR, hbv]⟩
    all_goals
      (by_cases hbv : bv = .IntImm 0
       · subst hbv
         left
         exact ⟨by simp [isBroadcastOf0], by simp [addRampR]⟩
       · right; right
         exact ⟨by simp [isBroadcastOf0, hbv], by simp [isBroadcast, isRamp],
           by simp [addRampR, hbv]⟩)
  all_goals
    right; right
    exact ⟨by simp [isBroadcastOf0], by simp [isBroadcast], by simp [addRampR]⟩

theorem addRampL_cases (R : Expr → FoldM) (orig l r lhs rhs : Expr) (lg : List Expr) :
    (isBroadcastOf0 lhs = true ∧ addRampL R orig l r lhs rhs lg = (rhs, lg))
    ∨ (∃ bv L base stride L2, lhs = .Broadcast bv L ∧ bv ≠ .IntImm 0 ∧
        rhs = .Ramp base stride L2 ∧
        addRampL R orig l r lhs rhs lg
          = ((R (.Ramp (.Add bv base) stride L2)).1,
             lg ++ (R (.Ramp (.Add bv base) stride L2)).2))
    ∨ (isBroadcastOf0 lhs = false ∧ (isBroadcast lhs && isRamp rhs) = false ∧
        addRampL R orig l r lhs rhs lg = addRampR R orig l r lhs rhs lg) := by
  cases lhs
  case Broadcast bv L =>
    cases rhs
    case Ramp base stride L2 =>
      by_cases hbv : bv = .IntImm 0
      · subst hbv
        left
        exact ⟨by simp [isBroadcastOf0], by simp [addRampL]⟩
      · right; left
        exact ⟨bv, L, base, stride, L2, rfl, hbv, rfl, by simp [addRampL, hbv]⟩
    all_goals
      (by_cases hbv : bv = .IntImm 0
       · subst hbv
         left
         exact ⟨by simp [isBroadcastOf0], by simp [addRampL]⟩
       · right; right
         exact ⟨by simp [isBroadcastOf0, hbv], by simp [isBroadcast, isRamp],
           by simp [addRampL, hbv]⟩)
  all_goals
    right; right
    exact ⟨by simp [isBroadcastOf0], by simp [isBroadcast], by simp [addRampL]⟩

theorem mulBroadcastR_cases (orig l r lhs rhs : Expr) (lg : List Expr) :
    (isBroadcastOf1 rhs = true ∧ mulBroadcastR orig l r lhs rhs lg = (lhs, lg))
    ∨ (isBroadcastOf1 rhs = false ∧
        mulBroadcastR orig l r lhs rhs lg = foldFinish .Mul orig l r lhs rhs lg) := by
  cases rhs
  case Broadcast bv L =>
    by_cases hbv : bv = .IntImm 1
    · subst hbv
      left
      exact ⟨by simp [isBroadcastOf1], by simp [mulBroadcastR]⟩
    · right
      exact ⟨by simp [isBroadcastOf1, hbv], by simp [mulBroadcastR, hbv]⟩
  all_goals
    right
    exact ⟨by simp [isBroadcastOf1], by simp [mulBroadcastR]⟩

theorem mulBroadcastL_cases (orig l r lhs rhs : Expr) (lg : List Expr) :
    (isBroadcastOf1 lhs = true ∧ mulBroadcastL orig l r lhs rhs lg = (rhs, lg))
    ∨ (isBroadcastOf1 lhs = false ∧
        mulBroadcastL orig l r lhs rhs lg = mulBroadcastR orig l r lhs rhs lg) := by
  cases lhs
  case Broadcast bv L =>
    by_cases hbv : bv = .IntImm 1
    · subst hbv
      left
      exact ⟨by simp [isBroadcastOf1], by simp [mulBroadcastL]⟩
    · right
      exact ⟨by simp [isBroadcastOf1, hbv], by simp [mulBroadcastL, hbv]⟩
  all_goals
    right
    exact ⟨by simp [isBroadcastOf1], by simp [mulBroadcastL]⟩

theorem fold_of_foldP {e : Expr} {p : FoldM} (h : foldP e = p) : fold e = p.1 := by
  rw [fold, h]

theorem isConstantL_eq_all : ∀ ps : List Expr, isConstantL ps = ps.all isConstant := by
  intro ps
  induction ps with
  | nil => simp [isConstantL]
  | cons p ps ih => simp [isConstantL, ih]

theorem foldFinish_fst_const_imm (mk : Expr → Expr → Expr) (orig l r : Expr) (lg : List Expr)
    (hmk : ∀ a b, isConstant (mk a b) = (isConstant a && isConstant b))
    (horig : orig = mk l r) :
    isConstant (foldFinish mk orig l r (fold l) (fold r) lg).1 = true →
    isImm (foldFinish mk orig l r (fold l) (fold r) lg).1 = true := by
  rw [foldFinish_eq mk orig l r _ _ _ horig]
  by_cases hg : (isConstant (fold l) && isConstant (fold r)) = true
  · rw [if_pos hg]
    intro _
    exact evaluateOp_isImm _
  · rw [if_neg hg]
    intro hc
    rw [show ((mk (fold l) (fold r), lg)).1 = mk (fold l) (fold r) from rfl, hmk] at hc
    exact absurd hc hg

theorem fold_const_imm_aux : ∀ (n : Nat) (e : Expr), esize e ≤ n →
    isConstant (fold e) = true → isImm (fold e) = true := by
  intro n
  induction n using Nat.strong_induction_on with
  | _ n ih =>
    intro e he
    cases e
    case Var a d =>
      rw [fold_of_foldP (foldP_var a d)]
      intro hc
      simp [isConstant] at hc
    case IntImm a =>
      rw [fold_of_foldP (foldP_int a)]
      intro _
      simp [isImm]
    case FloatImm a =>
      rw [fold_of_foldP (foldP_float a)]
      intro _
      simp [isImm]
    case Broadcast v L =>
      rw [fold_of_foldP (foldP_broadcast v L)]
      intro hc
      simp [isConstant] at hc
    case Ramp b s L =>
      rw [fold_of_foldP (foldP_ramp b s L)]
      intro hc
      simp [isConstant] at hc
    case Load dt bn bt i m =>
      rw [fold_of_foldP (foldP_load dt bn bt i m)]
      intro hc
      simp [isConstant] at hc
    case Cast t s =>
      by_cases hs : isConstant s = true
      · have hP : foldP (.Cast t s) = (evaluateOp (.Cast t s), [.Cast t s]) := by
          rw [foldP_cast, if_pos hs]
        rw [fold_of_foldP hP]
        intro _
        exact evaluateOp_isImm _
      · have hs' : isConstant s = false := by simpa using hs
        have hP : foldP (.Cast t s) = (.Cast t s, []) := by
          rw [foldP_cast, if_neg (by simp [hs'])]
        rw [fold_of_foldP hP]
        intro hc
        rw [show isConstant (.Cast t s) = isConstant s from rfl] at hc
        rw [hc] at hs'
        exact absurd hs' (by simp)
    case Intrinsics op ps =>
      by_cases hg : ((List.map fold ps).all isConstant && isPureOp op) = true
      · have hP : foldP (.Intrinsics op ps)
            = (evaluateOp (.Intrinsics op (List.map fold ps)),
               (List.map foldLog ps).flatten ++ [.Intrinsics op (List.map fold ps)]) := by
          rw [foldP_intrinsics, if_pos hg]
        rw [fold_of_foldP hP]
        intro _
        exact evaluateOp_isImm _
      · have hP : foldP (.Intrinsics op ps)
            = (.Intrinsics op (List.map fold ps), (List.map foldLog ps).flatten) := by
          rw [foldP_intrinsics, if_neg hg]
        rw [fold_of_foldP hP]
        intro hc
        rw [show isConstant (.Intrinsics op (List.map fold ps))
            = (isPureOp op && isConstantL (List.map fold ps)) from rfl,
          isConstantL_eq_all] at hc
        rw [Bool.and_eq_true] at hc hg
        exact (hg ⟨hc.2, hc.1⟩).elim
    case Add l r =>
      have hsl := fold_size l
      have hsr := fold_size r
      have hel : esize l < n := by simp [esize] at he; omega
      have her : esize r < n := by simp [esize] at he; omega
      have heq := foldP_add l r
      by_cases h1 : fold l = .IntImm 0
      · rw [if_pos h1] at heq
        rw [fold_of_foldP heq]
        exact ih (esize r) her r le_rfl
      · rw [if_neg h1] at heq
        by_cases h2 : fold r = .IntImm 0
        · rw [if_pos h2] at heq
          rw [fold_of_foldP heq]
          exact ih (esize l) hel l le_rfl
        · rw [if_neg h2] at heq
          rcases addRampL_cases foldP (.Add l r) l r (fold l) (fold r)
              (foldLog l ++ foldLog r) with
            ⟨_, hres⟩ | ⟨bv, L, base, stride, L2, hlB, _, hrR, hres⟩ | ⟨_, _, hres⟩
          · rw [hres] at heq
            rw [fold_of_foldP heq]
            exact ih (esize r) her r le_rfl
          · rw [hres] at heq
            have hX : esize (Expr.Ramp (.Add bv base) stride L2) < n := by
              rw [hlB] at hsl
              rw [hrR] at hsr
              simp [esize] at hsl hsr he ⊢
              omega
            rw [fold_of_foldP heq]
            exact ih _ hX _ le_rfl
          · rw [hres] at heq
            rcases addRampR_cases foldP (.Add l r) l r (fold l) (fold r)
                (foldLog l ++ foldLog r) with
              ⟨_, hres2⟩ | ⟨bv, L, base, stride, L2, hrB, _, hlR, hres2⟩ | ⟨_, _, hres2⟩
            · rw [hres2] at heq
              rw [fold_of_foldP heq]
              exact ih (esize l) hel l le_rfl
            · rw [hres2] at heq
              have hX : esize (Expr.Ramp (.Add bv base) stride L2) < n := by
                rw [hrB] at hsr
                rw [hlR] at hsl
                simp [esize] at hsl hsr he ⊢
                omega
              rw [fold_of_foldP heq]
              exact ih _ hX _ le_rfl
            · rw [hres2] at heq
              rw [fold_of_foldP heq]
              exact foldFinish_fst_const_imm _ _ _ _ _ (fun a b => rfl) rfl
    case Sub l r =>
      have hel : esize l < n := by simp [esize] at he; omega
      have heq := foldP_sub l r
      by_cases h2 : fold r = .IntImm 0
      · rw [if_pos h2] at heq
        rw [fold_of_foldP heq]
        exact ih (esize l) hel l le_rfl
      · rw [if_neg h2] at heq
        have heq2 : foldP (.Sub l r)
            = foldFinish Expr.Sub (.Sub l r) l r (fold l) (fold r) (foldLog l ++ foldLog r) := by
          rw [heq, foldFinish_eq _ _ _ _ _ _ _ rfl]
        rw [fold_of_foldP heq2]
        exact foldFinish_fst_const_imm _ _ _ _ _ (fun a b => rfl) rfl
    case Div l r =>
      have hel : esize l < n := by simp [esize] at he; omega
      have heq := foldP_div l r
      by_cases h2 : fold r = .IntImm 1
      · rw [if_pos h2] at heq
        rw [fold_of_foldP heq]
        exact ih (esize l) hel l le_rfl
      · rw [if_neg h2] at heq
        have heq2 : foldP (.Div l r)
            = foldFinish Expr.Div (.Div l r) l r (fold l) (fold r) (foldLog l ++ foldLog r) := by
          rw [heq, foldFinish_eq _ _ _ _ _ _ _ rfl]
        rw [fold_of_foldP heq2]
        exact foldFinish_fst_const_imm _ _ _ _ _ (fun a b => rfl) rfl
    case Mul l r =>
      have hel : esize l < n := by simp [esize] at he; omega
      have her : esize r < n := by simp [esize] at he; omega
      have heq := foldP_mul l r
      by_cases h1 : fold l = .IntImm 1
      · rw [if_pos h1] at heq
        rw [fold_of_foldP heq]
        exact ih (esize r) her r le_rfl
      · rw [if_neg h1] at heq
        by_cases h2 : fold r = .IntImm 1
        · rw [if_pos h2] at heq
          rw [fold_of_foldP heq]
          exact ih (esize l) hel l le_rfl
        · rw [if_neg h2] at heq
          by_cases h3 : fold l = .FloatImm 1
          · rw [if_pos h3] at heq
            rw [fold_of_foldP heq]
            exact ih (esize r) her r le_rfl
          · rw [if_neg h3] at heq
            by_cases h4 : fold r = .FloatImm 1
            · rw [if_pos h4] at heq
              rw [fold_of_foldP heq]
              exact ih (esize l) hel l le_rfl
            · rw [if_neg h4] at heq
              rcases mulBroadcastL_cases (.Mul l r) l r (fold l) (fold r)
                  (foldLog l ++ foldLog r) with ⟨_, hres⟩ | ⟨_, hres⟩
              · rw [hres] at heq
                rw [fold_of_foldP heq]
                exact ih (esize r) her r le_rfl
              · rw [hres] at heq
                rcases mulBroadcastR_cases (.Mul l r) l r (fold l) (fold r)
                    (foldLog l ++ foldLog r) with ⟨_, hres2⟩ | ⟨_, hres2⟩
                · rw [hres2] at heq
                  rw [fold_of_foldP heq]
                  exact ih (esize l) hel l le_rfl
                · rw [hres2] at heq
                  rw [fold_of_foldP heq]
                  exact foldFinish_fst_const_imm _ _ _ _ _ (fun a b => rfl) rfl
    case Mod l r =>
      have heq : foldP (.Mod l r)
          = foldFinish Expr.Mod (.Mod l r) l r (fold l) (fold r) (foldLog l ++ foldLog r) := by
        rw [foldP_mod, binOpStep_eq _ _ _ _ rfl, foldFinish_eq _ _ _ _ _ _ _ rfl]
      rw [fold_of_foldP heq]
      exact foldFinish_fst_const_imm _ _ _ _ _ (fun a b => rfl) rfl
    case And l r =>
      have heq : foldP (.And l r)
          = foldFinish Expr.And (.And l r) l r (fold l) (fold r) (foldLog l ++ foldLog r) := by
        rw [foldP_and, binOpStep_eq _ _ _ _ rfl, foldFinish_eq _ _ _ _ _ _ _ rfl]
      rw [fold_of_foldP heq]
      exact foldFinish_fst_const_imm _ _ _ _ _ (fun a b => rfl) rfl
    case Xor l r =>
      have heq : foldP (.Xor l r)
          = foldFinish Expr.Xor (.Xor l r) l r (fold l) (fold r) (foldLog l ++ foldLog r) := by
        rw [foldP_xor, binOpStep_eq _ _ _ _ rfl, foldFinish_eq _ _ _ _ _ _ _ rfl]
      rw [fold_of_foldP heq]
      exact foldFinish_fst_const_imm _ _ _ _ _ (fun a b => rfl) rfl
    case Lshift l r =>
      have heq : foldP (.Lshift l r)
          = foldFinish Expr.Lshift (.Lshift l r) l r (fold l) (fold r)
              (foldLog l ++ foldLog r) := by
        rw [foldP_lshift, binOpStep_eq _ _ _ _ rfl, foldFinish_eq _ _ _ _ _ _ _ rfl]
      rw [fold_of_foldP heq]
      exact foldFinish_fst_const_imm _ _ _ _ _ (fun a b => rfl) rfl
    case Rshift l r =>
      have heq : foldP (.Rshift l r)
          = foldFinish Expr.Rshift (.Rshift l r) l r (fold l) (fold r)
              (foldLog l ++ foldLog r) := by
        rw [foldP_rshift, binOpStep_eq _ _ _ _ rfl, foldFinish_eq _ _ _ _ _ _ _ rfl]
      rw [fold_of_foldP heq]
      exact foldFinish_fst_const_imm _ _ _ _ _ (fun a b => rfl) rfl
    case Max l r pn =>
      have heq : foldP (.Max l r pn)
          = foldFinish (fun a b => Expr.Max a b pn) (.Max l r pn) l r (fold l) (fold r)
              (foldLog l ++ foldLog r) := by
        rw [foldP_max, binOpStep_eq _ _ _ _ rfl, foldFinish_eq _ _ _ _ _ _ _ rfl]
      rw [fold_of_foldP heq]
      exact foldFinish_fst_const_imm _ _ _ _ _ (fun a b => rfl) rfl
    case Min l r pn =>
      have heq : foldP (.Min l r pn)
          = foldFinish (fun a b => Expr.Min a b pn) (.Min l r pn) l r (fold l) (fold r)
              (foldLog l ++ foldLog r) := by
        rw [foldP_min, binOpStep_eq _ _ _ _ rfl, foldFinish_eq _ _ _ _ _ _ _ rfl]
      rw [fold_of_foldP heq]
      exact foldFinish_fst_const_imm _ _ _ _ _ (fun a b => rfl) rfl

theorem fold_const_imm (e : Expr) :
    isConstant (fold e) = true → isImm (fold e) = true :=
  fold_const_imm_aux (esize e) e le_rfl

theorem promoteScalar_idem (s : ScalarType) : promoteScalar s s = s := by
  cases s <;> rfl

theorem imm_WT (v : Expr) : isImm v = true → WellTyped v = true := by
  cases v <;> simp [isImm, WellTyped]

theorem imm_lanes (v : Expr) : isImm v = true → (dtype v).lanes = 1 := by
  cases v <;> simp [isImm, dtype]

theorem const_WT_lanes_aux : ∀ (n : Nat) (e : Expr), esize e ≤ n →
    WellTyped e = true → isConstant e = true → (dtype e).lanes = 1 := by
  intro n
  induction n using Nat.strong_induction_on with
  | _ n ih =>
    intro e he hw hc
    cases e
    case Var a d => simp [isConstant] at hc
    case IntImm a => simp [dtype]
    case FloatImm a => simp [dtype]
    case Broadcast v L => simp [isConstant] at hc
    case Ramp b s L => simp [isConstant] at hc
    case Load dt bn bt i m => simp [isConstant] at hc
    case Cast t s =>
      simp only [WellTyped, Bool.and_eq_true, decide_eq_true_eq] at hw
      rw [show isConstant (.Cast t s) = isConstant s from rfl] at hc
      have := ih (esize s) (by simp [esize] at he; omega) s le_rfl hw.1 hc
      rw [show dtype (.Cast t s) = t from rfl, hw.2, this]
    case Intrinsics op ps =>
      cases op
      case rand => simp [isConstant, isPureOp, isConstantL] at hc
      case sqrt =>
        match ps with
        | [] => simp [WellTyped, wtIntr] at hw
        | [p] =>
          simp only [WellTyped, wtIntr, Bool.and_eq_true, decide_eq_true_eq] at hw
          rw [show dtype (.Intrinsics .sqrt [p]) = dtype p from rfl, hw.2]
        | _ :: _ :: _ => simp [WellTyped, wtIntr] at hw
    case Max l r pn =>
      simp only [WellTyped, Bool.and_eq_true, decide_eq_true_eq] at hw
      simp only [isConstant, Bool.and_eq_true] at hc
      have hl := ih (esize l) (by simp [esize] at he; omega) l le_rfl hw.1.1 hc.1
      simp only [dtype]
      exact hl
    case Min l r pn =>
      simp only [WellTyped, Bool.and_eq_true, decide_eq_true_eq] at hw
      simp only [isConstant, Bool.and_eq_true] at hc
      have hl := ih (esize l) (by simp [esize] at he; omega) l le_rfl hw.1.1 hc.1
      simp only [dtype]
      exact hl
    all_goals
      (simp only [WellTyped, Bool.and_eq_true, decide_eq_true_eq] at hw
       simp only [isConstant, Bool.and_eq_true] at hc
       rename_i l r
       have hl := ih (esize l) (by simp [esize] at he; omega) l le_rfl hw.1.1 hc.1
       simp only [dtype]
       exact hl)

theorem const_WT_lanes (e : Expr) :
    WellTyped e = true → isConstant e = true → (dtype e).lanes = 1 :=
  const_WT_lanes_aux (esize e) e le_rfl

theorem foldFinish_fst_WT (mk : Expr → Expr → Expr) (l r : Expr) (lg : List Expr)
    (hmk_dtype : ∀ a b, dtype (mk a b)
      = ⟨promoteScalar (dtype a).scalar (dtype b).scalar, (dtype a).lanes⟩)
    (hmk_WT : ∀ a b, WellTyped (mk a b)
      = (WellTyped a && WellTyped b && decide (dtype a = dtype b)))
    (hdl : dtype (fold l) = dtype l) (hwl : WellTyped (fold l) = true)
    (hdr : dtype (fold r) = dtype r) (hwr : WellTyped (fold r) = true)
    (heq : dtype l = dtype r) :
    dtype (foldFinish mk (mk l r) l r (fold l) (fold r) lg).1 = dtype (mk l r) ∧
    WellTyped (foldFinish mk (mk l r) l r (fold l) (fold r) lg).1 = true := by
  rw [foldFinish_eq mk (mk l r) l r _ _ _ rfl]
  have hnode_d : dtype (mk (fold l) (fold r)) = dtype (mk l r) := by
    rw [hmk_dtype, hmk_dtype, hdl, hdr]
  by_cases hg : (isConstant (fold l) && isConstant (fold r)) = true
  · rw [if_pos hg]
    have himm : isImm (fold l) = true :=
      fold_const_imm l (by rw [Bool.and_eq_true] at hg; exact hg.1)
    have hml : (dtype (mk l r)).lanes = 1 := by
      rw [hmk_dtype, ← hdl]
      exact imm_lanes _ himm
    constructor
    · show dtype (evaluateOp (mk (fold l) (fold r))) = dtype (mk l r)
      rw [dtype_evaluateOp, hnode_d, ← hml]
    · exact imm_WT _ (evaluateOp_isImm _)
  · rw [if_neg hg]
    constructor
    · exact hnode_d
    · show WellTyped (mk (fold l) (fold r)) = true
      rw [hmk_WT]
      simp [hwl, hwr, hdl, hdr, heq]

theorem bin_dtype_eq {l r : Expr} (h : dtype l = dtype r) :
    (⟨promoteScalar (dtype l).scalar (dtype r).scalar, (dtype l).lanes⟩ : Dtype) = dtype l := by
  rw [h, promoteScalar_idem]

theorem rampX_WT (d : Dtype) (bv base stride : Expr) (L L2 : Nat)
    (hB : dtype (.Broadcast bv L) = d) (hBW : WellTyped (.Broadcast bv L) = true)
    (hR : dtype (.Ramp base stride L2) = d)
    (hRW : WellTyped (.Ramp base stride L2) = true) :
    dtype (.Ramp (.Add bv base) stride L2) = d ∧
    WellTyped (.Ramp (.Add bv base) stride L2) = true := by
  obtain ⟨ds, dl⟩ := d
  simp only [dtype, WellTyped, Bool.and_eq_true, decide_eq_true_eq, Dtype.mk.injEq] at *
  obtain ⟨hBs, hBl⟩ := hB
  obtain ⟨hBW1, hBW2⟩ := hBW
  obtain ⟨hRs, hRl⟩ := hR
  obtain ⟨⟨⟨hW1, hW2⟩, hW3⟩, hW4⟩ := hRW
  have hbase : (dtype base).scalar = ds := by
    rw [hW3, promoteScalar_idem] at hRs
    rw [← hW3] at hRs
    exact hRs
  have hdbv : dtype bv = ⟨ds, 1⟩ := by
    have : dtype bv = ⟨(dtype bv).scalar, (dtype bv).lanes⟩ := rfl
    rw [this, hBs, hBW2]
  have hdbase : dtype base = ⟨ds, 1⟩ := by
    have : dtype base = ⟨(dtype base).scalar, (dtype base).lanes⟩ := rfl
    rw [this, hbase, hW4]
  have hdstride : dtype stride = ⟨ds, 1⟩ := by rw [← hW3, hdbase]
  refine ⟨⟨?_, hRl⟩, ⟨⟨⟨⟨hBW1, hW1⟩, ?_⟩, hW2⟩, ?_⟩, ?_⟩
  · rw [hdbv, hdbase, hdstride]
    simp [promoteScalar_idem]
  · rw [hdbv, hdbase]
  · rw [hdbv, hdbase, hdstride]
    simp [promoteScalar_idem]
  · rw [hdbv]

theorem fold_WT_aux : ∀ (n : Nat) (e : Expr), esize e ≤ n → WellTyped e = true →
    dtype (fold e) = dtype e ∧ WellTyped (fold e) = true := by
  intro n
  induction n using Nat.strong_induction_on with
  | _ n ih =>
    intro e he hw
    cases e
    case Var a d =>
      rw [fold_of_foldP (foldP_var a d)]
      exact ⟨rfl, rfl⟩
    case IntImm a =>
      rw [fold_of_foldP (foldP_int a)]
      exact ⟨rfl, rfl⟩
    case FloatImm a =>
      rw [fold_of_foldP (foldP_float a)]
      exact ⟨rfl, rfl⟩
    case Broadcast v L =>
      simp only [WellTyped, Bool.and_eq_true, decide_eq_true_eq] at hw
      obtain ⟨hd, hwv⟩ := ih (esize v) (by simp [esize] at he; omega) v le_rfl hw.1
      rw [fold_of_foldP (foldP_broadcast v L)]
      constructor
      · show dtype (.Broadcast (fold v) L) = dtype (.Broadcast v L)
        simp only [dtype, hd]
      · show WellTyped (.Broadcast (fold v) L) = true
        simp [WellTyped, hwv, hd, hw.2]
    case Ramp b s L =>
      simp only [WellTyped, Bool.and_eq_true, decide_eq_true_eq] at hw
      obtain ⟨⟨⟨hwb, hws⟩, hds⟩, hl1⟩ := hw
      obtain ⟨hdb2, hwb2⟩ := ih (esize b) (by simp [esize] at he; omega) b le_rfl hwb
      obtain ⟨hds2, hws2⟩ := ih (esize s) (by simp [esize] at he; omega) s le_rfl hws
      rw [fold_of_foldP (foldP_ramp b s L)]
      constructor
      · show dtype (.Ramp (fold b) (fold s) L) = dtype (.Ramp b s L)
        simp only [dtype, hdb2, hds2]
      · show WellTyped (.Ramp (fold b) (fold s) L) = true
        simp [WellTyped, hwb2, hws2, hdb2, hds2, hds]
        rw [← hds]
        exact hl1
    case Load dt bn bt i m =>
      simp only [WellTyped, Bool.and_eq_true] at hw
      obtain ⟨hdi, hwi⟩ := ih (esize i) (by simp [esize] at he; omega) i le_rfl hw.1
      obtain ⟨hdm, hwm⟩ := ih (esize m) (by simp [esize] at he; omega) m le_rfl hw.2
      rw [fold_of_foldP (foldP_load dt bn bt i m)]
      exact ⟨rfl, by simp [WellTyped, hwi, hwm]⟩
    case Cast t s =>
      simp only [WellTyped, Bool.and_eq_true, decide_eq_true_eq] at hw
      by_cases hs : isConstant s = true
      · have hP : foldP (.Cast t s) = (evaluateOp (.Cast t s), [.Cast t s]) := by
          rw [foldP_cast, if_pos hs]
        rw [fold_of_foldP hP]
        constructor
        · show dtype (evaluateOp (.Cast t s)) = dtype (.Cast t s)
          rw [dtype_evaluateOp]
          have h1 : t.lanes = 1 := by
            rw [hw.2]
            exact const_WT_lanes s hw.1 hs
          show (⟨(dtype (.Cast t s)).scalar, 1⟩ : Dtype) = t
          rw [show dtype (.Cast t s) = t from rfl, ← h1]
        · exact imm_WT _ (evaluateOp_isImm _)
      · have hP : foldP (.Cast t s) = (.Cast t s, []) := by
          rw [foldP_cast, if_neg (by simpa using hs)]
        rw [fold_of_foldP hP]
        exact ⟨rfl, by simp [WellTyped, hw.1, hw.2]⟩
    case Intrinsics op ps =>
      cases op
      case rand =>
        match ps with
        | [] =>
          have hP : foldP (.Intrinsics .rand [])
              = (.Intrinsics .rand [], []) := by
            rw [foldP_intrinsics]
            simp [isPureOp]
          rw [fold_of_foldP hP]
          exact ⟨rfl, rfl⟩
        | p :: rest => simp [WellTyped, wtIntr] at hw
      case sqrt =>
        match ps with
        | [] => simp [WellTyped, wtIntr] at hw
        | [p] =>
          simp only [WellTyped, wtIntr, Bool.and_eq_true, decide_eq_true_eq] at hw
          obtain ⟨hdp, hwp⟩ := ih (esize p) (by simp [esize, esizeL] at he; omega) p le_rfl hw.1
          by_cases hg : ((List.map fold [p]).all isConstant && isPureOp .sqrt) = true
          · have hP : foldP (.Intrinsics .sqrt [p])
                = (evaluateOp (.Intrinsics .sqrt (List.map fold [p])),
                   (List.map foldLog [p]).flatten
                     ++ [.Intrinsics .sqrt (List.map fold [p])]) := by
              rw [foldP_intrinsics, if_pos hg]
            rw [fold_of_foldP hP]
            constructor
            · show dtype (evaluateOp (.Intrinsics .sqrt (List.map fold [p])))
                  = dtype (.Intrinsics .sqrt [p])
              rw [dtype_evaluateOp]
              rw [show dtype (.Intrinsics .sqrt (List.map fold [p])) = dtype (fold p) from rfl]
              rw [show dtype (.Intrinsics .sqrt [p]) = dtype p from rfl]
              rw [hdp, hw.2]
            · exact imm_WT _ (evaluateOp_isImm _)
          · have hP : foldP (.Intrinsics .sqrt [p])
                = (.Intrinsics .sqrt (List.map fold [p]), (List.map foldLog [p]).flatten) := by
              rw [foldP_intrinsics, if_neg hg]
            rw [fold_of_foldP hP]
            constructor
            · show dtype (fold p) = dtype (.Intrinsics .sqrt [p])
              rw [hdp]
              rfl
            · show WellTyped (.Intrinsics .sqrt [fold p]) = true
              simp [WellTyped, wtIntr, hwp, hdp, hw.2]
        | p :: q :: rest => simp [WellTyped, wtIntr] at hw
    case Add l r =>
      simp only [WellTyped, Bool.and_eq_true, decide_eq_true_eq] at hw
      obtain ⟨⟨hwl, hwr⟩, hlr⟩ := hw
      obtain ⟨hdl, hwl2⟩ := ih (esize l) (by simp [esize] at he; omega) l le_rfl hwl
      obtain ⟨hdr, hwr2⟩ := ih (esize r) (by simp [esize] at he; omega) r le_rfl hwr
      have hsl := fold_size l
      have hsr := fold_size r
      have hde : dtype (.Add l r) = dtype l := bin_dtype_eq hlr
      have heq := foldP_add l r
      by_cases h1 : fold l = .IntImm 0
      · rw [if_pos h1] at heq
        rw [fold_of_foldP heq]
        exact ⟨by rw [show ((fold r, foldLog l ++ foldLog r) : FoldM).1 = fold r from rfl,
          hdr, hde, hlr], hwr2⟩
      · rw [if_neg h1] at heq
        by_cases h2 : fold r = .IntImm 0
        · rw [if_pos h2] at heq
          rw [fold_of_foldP heq]
          exact ⟨by rw [show ((fold l, foldLog l ++ foldLog r) : FoldM).1 = fold l from rfl,
            hdl, hde], hwl2⟩
        · rw [if_neg h2] at heq
          rcases addRampL_cases foldP (.Add l r) l r (fold l) (fold r)
              (foldLog l ++ foldLog r) with
            ⟨_, hres⟩ | ⟨bv, L, base, stride, L2, hlB, _, hrR, hres⟩ | ⟨_, _, hres⟩
          · rw [hres] at heq
            rw [fold_of_foldP heq]
            exact ⟨by rw [show ((fold r, foldLog l ++ foldLog r) : FoldM).1 = fold r from rfl,
              hdr, hde, hlr], hwr2⟩
          · rw [hres] at heq
            have hXd := rampX_WT (dtype l) bv base stride L L2
              (by rw [← hlB, hdl]) (by rw [← hlB]; exact hwl2)
              (by rw [← hrR, hdr, hlr]) (by rw [← hrR]; exact hwr2)
            have hX : esize (Expr.Ramp (.Add bv base) stride L2) < n := by
              rw [hlB] at hsl
              rw [hrR] at hsr
              simp [esize] at hsl hsr he ⊢
              omega
            obtain ⟨hXd2, hXw2⟩ := ih _ hX (Expr.Ramp (.Add bv base) stride L2) le_rfl hXd.2
            rw [fold_of_foldP heq]
            constructor
            · show dtype (fold (Expr.Ramp (.Add bv base) stride L2)) = dtype (.Add l r)
              rw [hXd2, hXd.1, hde]
            · exact hXw2
          · rw [hres] at heq
            rcases addRampR_cases foldP (.Add l r) l r (fold l) (fold r)
                (foldLog l ++ foldLog r) with
              ⟨_, hres2⟩ | ⟨bv, L, base, stride, L2, hrB, _, hlR, hres2⟩ | ⟨_, _, hres2⟩
            · rw [hres2] at heq
              rw [fold_of_foldP heq]
              exact ⟨by rw [show ((fold l, foldLog l ++ foldLog r) : FoldM).1 = fold l from rfl,
                hdl, hde], hwl2⟩
            · rw [hres2] at heq
              have hXd := rampX_WT (dtype l) bv base stride L L2
                (by rw [← hrB, hdr, hlr]) (by rw [← hrB]; exact hwr2)
                (by rw [← hlR, hdl]) (by rw [← hlR]; exact hwl2)
              have hX : esize (Expr.Ramp (.Add bv base) stride L2) < n := by
                rw [hrB] at hsr
                rw [hlR] at hsl
                simp [esize] at hsl hsr he ⊢
                omega
              obtain ⟨hXd2, hXw2⟩ := ih _ hX (Expr.Ramp (.Add bv base) stride L2) le_rfl hXd.2
              rw [fold_of_foldP heq]
              constructor
              · show dtype (fold (Expr.Ramp (.Add bv base) stride L2)) = dtype (.Add l r)
                rw [hXd2, hXd.1, hde]
              · exact hXw2
            · rw [hres2] at heq
              rw [fold_of_foldP heq]
              exact foldFinish_fst_WT Expr.Add l r _ (fun a b => rfl) (fun a b => rfl)
                hdl hwl2 hdr hwr2 hlr
    case Sub l r =>
      simp only [WellTyped, Bool.and_eq_true, decide_eq_true_eq] at hw
      obtain ⟨⟨hwl, hwr⟩, hlr⟩ := hw
      obtain ⟨hdl, hwl2⟩ := ih (esize l) (by simp [esize] at he; omega) l le_rfl hwl
      obtain ⟨hdr, hwr2⟩ := ih (esize r) (by simp [esize] at he; omega) r le_rfl hwr
      have hde : dtype (.Sub l r) = dtype l := bin_dtype_eq hlr
      have heq := foldP_sub l r
      by_cases h2 : fold r = .IntImm 0
      · rw [if_pos h2] at heq
        rw [fold_of_foldP heq]
        exact ⟨by rw [show ((fold l, foldLog l ++ foldLog r) : FoldM).1 = fold l from rfl,
          hdl, hde], hwl2⟩
      · rw [if_neg h2] at heq
        have heq2 : foldP (.Sub l r)
            = foldFinish Expr.Sub (.Sub l r) l r (fold l) (fold r)
                (foldLog l ++ foldLog r) := by
          rw [heq, foldFinish_eq _ _ _ _ _ _ _ rfl]
        rw [fold_of_foldP heq2]
        exact foldFinish_fst_WT Expr.Sub l r _ (fun a b => rfl) (fun a b => rfl)
          hdl hwl2 hdr hwr2 hlr
    case Div l r =>
      simp only [WellTyped, Bool.and_eq_true, decide_eq_true_eq] at hw
      obtain ⟨⟨hwl, hwr⟩, hlr⟩ := hw
      obtain ⟨hdl, hwl2⟩ := ih (esize l) (by simp [esize] at he; omega) l le_rfl hwl
      obtain ⟨hdr, hwr2⟩ := ih (esize r) (by simp [esize] at he; omega) r le_rfl hwr
      have hde : dtype (.Div l r) = dtype l := bin_dtype_eq hlr
      have heq := foldP_div l r
      by_cases h2 : fold r = .IntImm 1
      · rw [if_pos h2] at heq
        rw [fold_of_foldP heq]
        exact ⟨by rw [show ((fold l, foldLog l ++ foldLog r) : FoldM).1 = fold l from rfl,
          hdl, hde], hwl2⟩
      · rw [if_neg h2] at heq
        have heq2 : foldP (.Div l r)
            = foldFinish Expr.Div (.Div l r) l r (fold l) (fold r)
                (foldLog l ++ foldLog r) := by
          rw [heq, foldFinish_eq _ _ _ _ _ _ _ rfl]
        rw [fold_of_foldP heq2]
        exact foldFinish_fst_WT Expr.Div l r _ (fun a b => rfl) (fun a b => rfl)
          hdl hwl2 hdr hwr2 hlr
    case Mul l r =>
      simp only [WellTyped, Bool.and_eq_true, decide_eq_true_eq] at hw
      obtain ⟨⟨hwl, hwr⟩, hlr⟩ := hw
      obtain ⟨hdl, hwl2⟩ := ih (esize l) (by simp [esize] at he; omega) l le_rfl hwl
      obtain ⟨hdr, hwr2⟩ := ih (esize r) (by simp [esize] at he; omega) r le_rfl hwr
      have hde : dtype (.Mul l r) = dtype l := bin_dtype_eq hlr
      have heq := foldP_mul l r
      by_cases h1 : fold l = .IntImm 1
      · rw [if_pos h1] at heq
        rw [fold_of_foldP heq]
        exact ⟨by rw [show ((fold r, foldLog l ++ foldLog r) : FoldM).1 = fold r from rfl,
          hdr, hde, hlr], hwr2⟩
      · rw [if_neg h1] at heq
        by_cases h2 : fold r = .IntImm 1
        · rw [if_pos h2] at heq
          rw [fold_of_foldP heq]
          exact ⟨by rw [show ((fold l, foldLog l ++ foldLog r) : FoldM).1 = fold l from rfl,
            hdl, hde], hwl2⟩
        · rw [if_neg h2] at heq
          by_cases h3 : fold l = .FloatImm 1
          · rw [if_pos h3] at heq
            rw [fold_of_foldP heq]
            exact ⟨by rw [show ((fold r, foldLog l ++ foldLog r) : FoldM).1 = fold r from rfl,
              hdr, hde, hlr], hwr2⟩
          · rw [if_neg h3] at heq
            by_cases h4 : fold r = .FloatImm 1
            · rw [if_pos h4] at heq
              rw [fold_of_foldP heq]
              exact ⟨by rw [show ((fold l, foldLog l ++ foldLog r) : FoldM).1 = fold l from rfl,
                hdl, hde], hwl2⟩
            · rw [if_neg h4] at heq
              rcases mulBroadcastL_cases (.Mul l r) l r (fold l) (fold r)
                  (foldLog l ++ foldLog r) with ⟨_, hres⟩ | ⟨_, hres⟩
              · rw [hres] at heq
                rw [fold_of_foldP heq]
                exact ⟨by rw [show ((fold r, foldLog l ++ foldLog r) : FoldM).1 = fold r from rfl,
                  hdr, hde, hlr], hwr2⟩
              · rw [hres] at heq
                rcases mulBroadcastR_cases (.Mul l r) l r (fold l) (fold r)
                    (foldLog l ++ foldLog r) with ⟨_, hres2⟩ | ⟨_, hres2⟩
                · rw [hres2] at heq
                  rw [fold_of_foldP heq]
                  exact ⟨by rw [show ((fold l, foldLog l ++ foldLog r) : FoldM).1 = fold l
                    from rfl, hdl, hde], hwl2⟩
                · rw [hres2] at heq
                  rw [fold_of_foldP heq]
                  exact foldFinish_fst_WT Expr.Mul l r _ (fun a b => rfl) (fun a b => rfl)
                    hdl hwl2 hdr hwr2 hlr
    case Mod l r =>
      simp only [WellTyped, Bool.and_eq_true, decide_eq_true_eq] at hw
      obtain ⟨⟨hwl, hwr⟩, hlr⟩ := hw
      obtain ⟨hdl, hwl2⟩ := ih (esize l) (by simp [esize] at he; omega) l le_rfl hwl
      obtain ⟨hdr, hwr2⟩ := ih (esize r) (by simp [esize] at he; omega) r le_rfl hwr
      have heq : foldP (.Mod l r)
          = foldFinish Expr.Mod (.Mod l r) l r (fold l) (fold r) (foldLog l ++ foldLog r) := by
        rw [foldP_mod, binOpStep_eq _ _ _ _ rfl, foldFinish_eq _ _ _ _ _ _ _ rfl]
      rw [fold_of_foldP heq]
      exact foldFinish_fst_WT Expr.Mod l r _ (fun a b => rfl) (fun a b => rfl)
        hdl hwl2 hdr hwr2 hlr
    case And l r =>
      simp only [WellTyped, Bool.and_eq_true, decide_eq_true_eq] at hw
      obtain ⟨⟨hwl, hwr⟩, hlr⟩ := hw
      obtain ⟨hdl, hwl2⟩ := ih (esize l) (by simp [esize] at he; omega) l le_rfl hwl
      obtain ⟨hdr, hwr2⟩ := ih (esize r) (by simp [esize] at he; omega) r le_rfl hwr
      have heq : foldP (.And l r)
          = foldFinish Expr.And (.And l r) l r (fold l) (fold r) (foldLog l ++ foldLog r) := by
        rw [foldP_and, binOpStep_eq _ _ _ _ rfl, foldFinish_eq _ _ _ _ _ _ _ rfl]
      rw [fold_of_foldP heq]
      exact foldFinish_fst_WT Expr.And l r _ (fun a b => rfl) (fun a b => rfl)
        hdl hwl2 hdr hwr2 hlr
    case Xor l r =>
      simp only [WellTyped, Bool.and_eq_true, decide_eq_true_eq] at hw
      obtain ⟨⟨hwl, hwr⟩, hlr⟩ := hw
      obtain ⟨hdl, hwl2⟩ := ih (esize l) (by simp [esize] at he; omega) l le_rfl hwl
      obtain ⟨hdr, hwr2⟩ := ih (esize r) (by simp [esize] at he; omega) r le_rfl hwr
      have heq : foldP (.Xor l r)
          = foldFinish Expr.Xor (.Xor l r) l r (fold l) (fold r) (foldLog l ++ foldLog r) := by
        rw [foldP_xor, binOpStep_eq _ _ _ _ rfl, foldFinish_eq _ _ _ _ _ _ _ rfl]
      rw [fold_of_foldP heq]
      exact foldFinish_fst_WT Expr.Xor l r _ (fun a b => rfl) (fun a b => rfl)
        hdl hwl2 hdr hwr2 hlr
    case Lshift l r =>
      simp only [WellTyped, Bool.and_eq_true, decide_eq_true_eq] at hw
      obtain ⟨⟨hwl, hwr⟩, hlr⟩ := hw
      obtain ⟨hdl, hwl2⟩ := ih (esize l) (by simp [esize] at he; omega) l le_rfl hwl
      obtain ⟨hdr, hwr2⟩ := ih (esize r) (by simp [esize] at he; omega) r le_rfl hwr
      have heq : foldP (.Lshift l r)
          = foldFinish Expr.Lshift (.Lshift l r) l r (fold l) (fold r)
              (foldLog l ++ foldLog r) := by
        rw [foldP_lshift, binOpStep_eq _ _ _ _ rfl, foldFinish_eq _ _ _ _ _ _ _ rfl]
      rw [fold_of_foldP heq]
      exact foldFinish_fst_WT Expr.Lshift l r _ (fun a b => rfl) (fun a b => rfl)
        hdl hwl2 hdr hwr2 hlr
    case Rshift l r =>
      simp only [WellTyped, Bool.and_eq_true, decide_eq_true_eq] at hw
      obtain ⟨⟨hwl, hwr⟩, hlr⟩ := hw
      obtain ⟨hdl, hwl2⟩ := ih (esize l) (by simp [esize] at he; omega) l le_rfl hwl
      obtain ⟨hdr, hwr2⟩ := ih (esize r) (by simp [esize] at he; omega) r le_rfl hwr
      have heq : foldP (.Rshift l r)
          = foldFinish Expr.Rshift (.Rshift l r) l r (fold l) (fold r)
              (foldLog l ++ foldLog r) := by
        rw [foldP_rshift, binOpStep_eq _ _ _ _ rfl, foldFinish_eq _ _ _ _ _ _ _ rfl]
      rw [fold_of_foldP heq]
      exact foldFinish_fst_WT Expr.Rshift l r _ (fun a b => rfl) (fun a b => rfl)
        hdl hwl2 hdr hwr2 hlr
    case Max l r pn =>
      simp only [WellTyped, Bool.and_eq_true, decide_eq_true_eq] at hw
      obtain ⟨⟨hwl, hwr⟩, hlr⟩ := hw
      obtain ⟨hdl, hwl2⟩ := ih (esize l) (by simp [esize] at he; omega) l le_rfl hwl
      obtain ⟨hdr, hwr2⟩ := ih (esize r) (by simp [esize] at he; omega) r le_rfl hwr
      have heq : foldP (.Max l r pn)
          = foldFinish (fun a b => Expr.Max a b pn) (.Max l r pn) l r (fold l) (fold r)
              (foldLog l ++ foldLog r) := by
        rw [foldP_max, binOpStep_eq _ _ _ _ rfl, foldFinish_eq _ _ _ _ _ _ _ rfl]
      rw [fold_of_foldP heq]
      exact foldFinish_fst_WT (fun a b => Expr.Max a b pn) l r _ (fun a b => rfl)
        (fun a b => rfl) hdl hwl2 hdr hwr2 hlr
    case Min l r pn =>
      simp only [WellTyped, Bool.and_eq_true, decide_eq_true_eq] at hw
      obtain ⟨⟨hwl, hwr⟩, hlr⟩ := hw
      obtain ⟨hdl, hwl2⟩ := ih (esize l) (by simp [esize] at he; omega) l le_rfl hwl
      obtain ⟨hdr, hwr2⟩ := ih (esize r) (by simp [esize] at he; omega) r le_rfl hwr
      have heq : foldP (.Min l r pn)
          = foldFinish (fun a b => Expr.Min a b pn) (.Min l r pn) l r (fold l) (fold r)
              (foldLog l ++ foldLog r) := by
        rw [foldP_min, binOpStep_eq _ _ _ _ rfl, foldFinish_eq _ _ _ _ _ _ _ rfl]
      rw [fold_of_foldP heq]
      exact foldFinish_fst_WT (fun a b => Expr.Min a b pn) l r _ (fun a b => rfl)
        (fun a b => rfl) hdl hwl2 hdr hwr2 hlr

theorem fold_WT (e : Expr) (hw : WellTyped e = true) :
    dtype (fold e) = dtype e ∧ WellTyped (fold e) = true :=
  fold_WT_aux (esize e) e le_rfl hw

theorem foldLog_of_foldP {e : Expr} {p : FoldM} (h : foldP e = p) : foldLog e = p.2 := by
  rw [foldLog, h]

/-- C8: on well-typed expressions (operand dtypes agree node-by-node, as the
repository's node constructors guarantee) folding never alters a node's
dtype: element type and lane count are both preserved, for every node kind,
including nodes replaced by the evaluator's immediate and nodes returned by
the identity eliminations. -/
theorem c8_dtype_preserved (e : Expr) (hw : WellTyped e = true) :
    dtype (fold e) = dtype e :=
  (fold_WT e hw).1

theorem c8_dtype_preserved_witness :
    WellTyped (.Add (.Var "x" ⟨.SInt, 1⟩) (.IntImm 0)) = true ∧
    dtype (fold (.Add (.Var "x" ⟨.SInt, 1⟩) (.IntImm 0)))
      = dtype (.Add (.Var "x" ⟨.SInt, 1⟩) (.IntImm 0)) :=
  ⟨by decide, c8_dtype_preserved (.Add (.Var "x" ⟨.SInt, 1⟩) (.IntImm 0)) (by decide)⟩

/-- C2: after children are folded, the scalar identity eliminations hold:
adding integer zero, multiplying by integer one or float one (the float
cases on operands of float dtype, the only dtype at which the repository
builds such a node), subtracting integer zero and dividing by integer one
each return the folded other operand; the accompanying `foldLog` equations
show the eliminated node contributes no `evaluateOp` call of its own. -/
theorem c2_identity_eliminations :
    (∀ x : Expr, fold (.Add (.IntImm 0) x) = fold x
      ∧ foldLog (.Add (.IntImm 0) x) = foldLog x) ∧
    (∀ x : Expr, fold (.Add x (.IntImm 0)) = fold x
      ∧ foldLog (.Add x (.IntImm 0)) = foldLog x) ∧
    (∀ x : Expr, fold (.Mul (.IntImm 1) x) = fold x
      ∧ foldLog (.Mul (.IntImm 1) x) = foldLog x) ∧
    (∀ x : Expr, fold (.Mul x (.IntImm 1)) = fold x
      ∧ foldLog (.Mul x (.IntImm 1)) = foldLog x) ∧
    (∀ x : Expr, WellTyped x = true → (dtype x).scalar = .SFloat →
      fold (.Mul (.FloatImm 1) x) = fold x
      ∧ foldLog (.Mul (.FloatImm 1) x) = foldLog x) ∧
    (∀ x : Expr, WellTyped x = true → (dtype x).scalar = .SFloat →
      fold (.Mul x (.FloatImm 1)) = fold x
      ∧ foldLog (.Mul x (.FloatImm 1)) = foldLog x) ∧
    (∀ x : Expr, fold (.Sub x (.IntImm 0)) = fold x
      ∧ foldLog (.Sub x (.IntImm 0)) = foldLog x) ∧
    (∀ x : Expr, fold (.Div x (.IntImm 1)) = fold x
      ∧ foldLog (.Div x (.IntImm 1)) = foldLog x) := by
  have h0 : fold (.IntImm 0) = .IntImm 0 := rfl
  have h1i : fold (.IntImm 1) = .IntImm 1 := rfl
  have hf1 : fold (.FloatImm 1) = .FloatImm 1 := rfl
  have hlg0 : foldLog (.IntImm 0) = [] := rfl
  have hlg1 : foldLog (.IntImm 1) = [] := rfl
  have hlgf : foldLog (.FloatImm 1) = [] := rfl
  refine ⟨?_, ?_, ?_, ?_, ?_, ?_, ?_, ?_⟩
  · intro x
    have heq := foldP_add (.IntImm 0) x
    rw [h0, if_pos rfl, hlg0] at heq
    exact ⟨fold_of_foldP heq, foldLog_of_foldP heq⟩
  · intro x
    have heq := foldP_add x (.IntImm 0)
    rw [h0, hlg0, List.append_nil] at heq
    by_cases h1 : fold x = .IntImm 0
    · rw [if_pos h1] at heq
      have ha := fold_of_foldP heq
      have hb := foldLog_of_foldP heq
      exact ⟨ha.trans h1.symm, hb⟩
    · rw [if_neg h1, if_pos rfl] at heq
      exact ⟨fold_of_foldP heq, foldLog_of_foldP heq⟩
  · intro x
    have heq := foldP_mul (.IntImm 1) x
    rw [h1i, if_pos rfl, hlg1] at heq
    exact ⟨fold_of_foldP heq, foldLog_of_foldP heq⟩
  · intro x
    have heq := foldP_mul x (.IntImm 1)
    rw [h1i, hlg1, List.append_nil] at heq
    by_cases h1 : fold x = .IntImm 1
    · rw [if_pos h1] at heq
      have ha := fold_of_foldP heq
      have hb := foldLog_of_foldP heq
      exact ⟨ha.trans h1.symm, hb⟩
    · rw [if_neg h1, if_pos rfl] at heq
      exact ⟨fold_of_foldP heq, foldLog_of_foldP heq⟩
  · intro x hw hsc
    have hdx := (fold_WT x hw).1
    have hni : fold x ≠ .IntImm 1 := by
      intro h
      rw [h] at hdx
      rw [← hdx] at hsc
      simp [dtype] at hsc
    have heq := foldP_mul (.FloatImm 1) x
    rw [hf1, hlgf] at heq
    rw [if_neg (by simp), if_neg hni, if_pos rfl] at heq
    exact ⟨fold_of_foldP heq, foldLog_of_foldP heq⟩
  · intro x hw hsc
    have hdx := (fold_WT x hw).1
    have hni : fold x ≠ .IntImm 1 := by
      intro h
      rw [h] at hdx
      rw [← hdx] at hsc
      simp [dtype] at hsc
    have heq := foldP_mul x (.FloatImm 1)
    rw [hf1, hlgf, List.append_nil] at heq
    rw [if_neg hni, if_neg (by simp)] at heq
    by_cases h3 : fold x = .FloatImm 1
    · rw [if_pos h3] at heq
      have ha := fold_of_foldP heq
      have hb := foldLog_of_foldP heq
      exact ⟨ha.trans h3.symm, hb⟩
    · rw [if_neg h3, if_pos rfl] at heq
      exact ⟨fold_of_foldP heq, foldLog_of_foldP heq⟩
  · intro x
    have heq := foldP_sub x (.IntImm 0)
    rw [h0, if_pos rfl, hlg0, List.append_nil] at heq
    exact ⟨fold_of_foldP heq, foldLog_of_foldP heq⟩
  · intro x
    have heq := foldP_div x (.IntImm 1)
    rw [h1i, if_pos rfl, hlg1, List.append_nil] at heq
    exact ⟨fold_of_foldP heq, foldLog_of_foldP heq⟩

theorem c2_identity_eliminations_witness :
    (fold (.Mul (.FloatImm 1) (.Var "v" ⟨.SFloat, 1⟩)) = fold (.Var "v" ⟨.SFloat, 1⟩)) ∧
    (fold (.Mul (.Var "v" ⟨.SFloat, 1⟩) (.FloatImm 1)) = fold (.Var "v" ⟨.SFloat, 1⟩)) :=
  ⟨(c2_identity_eliminations.2.2.2.2.1 (.Var "v" ⟨.SFloat, 1⟩) (by decide) (by decide)).1,
   (c2_identity_eliminations.2.2.2.2.2.1 (.Var "v" ⟨.SFloat, 1⟩) (by decide) (by decide)).1⟩

theorem ccL_eq_all : ∀ ps : List Expr, ccL ps = ps.all isConstant := by
  intro ps
  induction ps with
  | nil => simp [ccL]
  | cons p ps ih => simp [ccL, ih]

theorem mem_flatten_foldLog {n : Expr} {ps : List Expr}
    (h : n ∈ (List.map foldLog ps).flatten) : ∃ p ∈ ps, n ∈ foldLog p := by
  rcases List.mem_flatten.mp h with ⟨lg, hlg, hn⟩
  rcases List.mem_map.mp hlg with ⟨p, hp, rfl⟩
  exact ⟨p, hp, hn⟩

theorem foldFinish_log_ok (mk : Expr → Expr → Expr) (l r : Expr) (lg : List Expr)
    (hcc : ∀ a b, childrenConstant (mk a b) = (isConstant a && isConstant b))
    (hni : ∀ a b op ps, mk a b ≠ .Intrinsics op ps)
    (H : ∀ x ∈ lg, evalCallOK x) :
    ∀ n ∈ (foldFinish mk (mk l r) l r (fold l) (fold r) lg).2, evalCallOK n := by
  rw [foldFinish_eq mk (mk l r) l r _ _ _ rfl]
  by_cases hg : (isConstant (fold l) && isConstant (fold r)) = true
  · rw [if_pos hg]
    intro n hn
    rcases List.mem_append.mp hn with h1 | h2
    · exact H n h1
    · rw [List.mem_singleton.mp h2]
      exact ⟨by rw [hcc]; exact hg, fun op ps h => absurd h (hni _ _ op ps)⟩
  · rw [if_neg hg]
    exact H

theorem foldLog_ok_aux : ∀ (n : Nat) (e : Expr), esize e ≤ n →
    ∀ x ∈ foldLog e, evalCallOK x := by
  intro n
  induction n using Nat.strong_induction_on with
  | _ n ih =>
    intro e he
    cases e
    case Var a d =>
      rw [foldLog_of_foldP (foldP_var a d)]
      intro x hx
      exact absurd hx (List.not_mem_nil x)
    case IntImm a =>
      rw [foldLog_of_foldP (foldP_int a)]
      intro x hx
      exact absurd hx (List.not_mem_nil x)
    case FloatImm a =>
      rw [foldLog_of_foldP (foldP_float a)]
      intro x hx
      exact absurd hx (List.not_mem_nil x)
    case Broadcast v L =>
      rw [foldLog_of_foldP (foldP_broadcast v L)]
      exact ih (esize v) (by simp [esize] at he; omega) v le_rfl
    case Ramp b s L =>
      rw [foldLog_of_foldP (foldP_ramp b s L)]
      intro x hx
      rcases List.mem_append.mp hx with h1 | h2
      · exact ih (esize b) (by simp [esize] at he; omega) b le_rfl x h1
      · exact ih (esize s) (by simp [esize] at he; omega) s le_rfl x h2
    case Load dt bn bt i m =>
      rw [foldLog_of_foldP (foldP_load dt bn bt i m)]
      intro x hx
      rcases List.mem_append.mp hx with h1 | h2
      · exact ih (esize i) (by simp [esize] at he; omega) i le_rfl x h1
      · exact ih (esize m) (by simp [esize] at he; omega) m le_rfl x h2
    case Cast t s =>
      by_cases hs : isConstant s = true
      · have hP : foldP (.Cast t s) = (evaluateOp (.Cast t s), [.Cast t s]) := by
          rw [foldP_cast, if_pos hs]
        rw [foldLog_of_foldP hP]
        intro x hx
        rw [List.mem_singleton.mp hx]
        exact ⟨hs, fun op ps h => by cases h⟩
      · have hP : foldP (.Cast t s) = (.Cast t s, []) := by
          rw [foldP_cast, if_neg (by simpa using hs)]
        rw [foldLog_of_foldP hP]
        intro x hx
        exact absurd hx (List.not_mem_nil x)
    case Intrinsics op ps =>
      have hmem : ∀ x ∈ (List.map foldLog ps).flatten, evalCallOK x := by
        intro x hx
        rcases mem_flatten_foldLog hx with ⟨p, hp, hxp⟩
        have hps := esizeL_mem ps p hp
        exact ih (esize p) (by simp [esize] at he; omega) p le_rfl x hxp
      by_cases hg : ((List.map fold ps).all isConstant && isPureOp op) = true
      · have hP : foldP (.Intrinsics op ps)
            = (evaluateOp (.Intrinsics op (List.map fold ps)),
               (List.map foldLog ps).flatten ++ [.Intrinsics op (List.map fold ps)]) := by
          rw [foldP_intrinsics, if_pos hg]
        rw [foldLog_of_foldP hP]
        intro x hx
        rcases List.mem_append.mp hx with h1 | h2
        · exact hmem x h1
        · rw [List.mem_singleton.mp h2]
          rw [Bool.and_eq_true] at hg
          refine ⟨?_, ?_⟩
          · rw [show childrenConstant (.Intrinsics op (List.map fold ps))
              = ccL (List.map fold ps) from rfl, ccL_eq_all]
            exact hg.1
          · intro op2 ps2 h
            cases h
            exact hg.2
      · have hP : foldP (.Intrinsics op ps)
            = (.Intrinsics op (List.map fold ps), (List.map foldLog ps).flatten) := by
          rw [foldP_intrinsics, if_neg hg]
        rw [foldLog_of_foldP hP]
        exact hmem
    case Add l r =>
      have hsl := fold_size l
      have hsr := fold_size r
      have hmem : ∀ x ∈ foldLog l ++ foldLog r, evalCallOK x := by
        intro x hx
        rcases List.mem_append.mp hx with h1 | h2
        · exact ih (esize l) (by simp [esize] at he; omega) l le_rfl x h1
        · exact ih (esize r) (by simp [esize] at he; omega) r le_rfl x h2
      have heq := foldP_add l r
      by_cases h1 : fold l = .IntImm 0
      · rw [if_pos h1] at heq
        rw [foldLog_of_foldP heq]
        exact hmem
      · rw [if_neg h1] at heq
        by_cases h2 : fold r = .IntImm 0
        · rw [if_pos h2] at heq
          rw [foldLog_of_foldP heq]
          exact hmem
        · rw [if_neg h2] at heq
          rcases addRampL_cases foldP (.Add l r) l r (fold l) (fold r)
              (foldLog l ++ foldLog r) with
            ⟨_, hres⟩ | ⟨bv, L, base, stride, L2, hlB, _, hrR, hres⟩ | ⟨_, _, hres⟩
          · rw [hres] at heq
            rw [foldLog_of_foldP heq]
            exact hmem
          · rw [hres] at heq
            rw [foldLog_of_foldP heq]
            intro x hx
            rcases List.mem_append.mp hx with hxa | hxb
            · exact hmem x hxa
            · have hX : esize (Expr.Ramp (.Add bv base) stride L2) < n := by
                rw [hlB] at hsl
                rw [hrR] at hsr
                simp [esize] at hsl hsr he ⊢
                omega
              exact ih _ hX (Expr.Ramp (.Add bv base) stride L2) le_rfl x hxb
          · rw [hres] at heq
            rcases addRampR_cases foldP (.Add l r) l r (fold l) (fold r)
                (foldLog l ++ foldLog r) with
              ⟨_, hres2⟩ | ⟨bv, L, base, stride, L2, hrB, _, hlR, hres2⟩ | ⟨_, _, hres2⟩
            · rw [hres2] at heq
              rw [foldLog_of_foldP heq]
              exact hmem
            · rw [hres2] at heq
              rw [foldLog_of_foldP heq]
              intro x hx
              rcases List.mem_append.mp hx with hxa | hxb
              · exact hmem x hxa
              · have hX : esize (Expr.Ramp (.Add bv base) stride L2) < n := by
                  rw [hrB] at hsr
                  rw [hlR] at hsl
                  simp [esize] at hsl hsr he ⊢
                  omega
                exact ih _ hX (Expr.Ramp (.Add bv base) stride L2) le_rfl x hxb
            · rw [hres2] at heq
              rw [foldLog_of_foldP heq]
              exact foldFinish_log_ok Expr.Add l r _ (fun a b => rfl)
                (fun a b op ps h => by cases h) hmem
    case Sub l r =>
      have hmem : ∀ x ∈ foldLog l ++ foldLog r, evalCallOK x := by
        intro x hx
        rcases List.mem_append.mp hx with hx1 | hx2
        · exact ih (esize l) (by simp [esize] at he; omega) l le_rfl x hx1
        · exact ih (esize r) (by simp [esize] at he; omega) r le_rfl x hx2
      have heq := foldP_sub l r
      by_cases h2 : fold r = .IntImm 0
      · rw [if_pos h2] at heq
        rw [foldLog_of_foldP heq]
        exact hmem
      · rw [if_neg h2] at heq
        have heq2 : foldP (.Sub l r)
            = foldFinish Expr.Sub (.Sub l r) l r (fold l) (fold r)
                (foldLog l ++ foldLog r) := by
          rw [heq, foldFinish_eq _ _ _ _ _ _ _ rfl]
        rw [foldLog_of_foldP heq2]
        exact foldFinish_log_ok Expr.Sub l r _ (fun a b => rfl)
          (fun a b op ps h => by cases h) hmem
    case Div l r =>
      have hmem : ∀ x ∈ foldLog l ++ foldLog r, evalCallOK x := by
        intro x hx
        rcases List.mem_append.mp hx with hx1 | hx2
        · exact ih (esize l) (by simp [esize] at he; omega) l le_rfl x hx1
        · exact ih (esize r) (by simp [esize] at he; omega) r le_rfl x hx2
      have heq := foldP_div l r
      by_cases h2 : fold r = .IntImm 1
      · rw [if_pos h2] at heq
        rw [foldLog_of_foldP heq]
        exact hmem
      · rw [if_neg h2] at heq
        have heq2 : foldP (.Div l r)
            = foldFinish Expr.Div (.Div l r) l r (fold l) (fold r)
                (foldLog l ++ foldLog r) := by
          rw [heq, foldFinish_eq _ _ _ _ _ _ _ rfl]
        rw [foldLog_of_foldP heq2]
        exact foldFinish_log_ok Expr.Div l r _ (fun a b => rfl)
          (fun a b op ps h => by cases h) hmem
    case Mul l r =>
      have hmem : ∀ x ∈ foldLog l ++ foldLog r, evalCallOK x := by
        intro x hx
        rcases List.mem_append.mp hx with hx1 | hx2
        · exact ih (esize l) (by simp [esize] at he; omega) l le_rfl x hx1
        · exact ih (esize r) (by simp [esize] at he; omega) r le_rfl x hx2
      have heq := foldP_mul l r
      by_cases h1 : fold l = .IntImm 1
      · rw [if_pos h1] at heq
        rw [foldLog_of_foldP heq]
        exact hmem
      · rw [if_neg h1] at heq
        by_cases h2 : fold r = .IntImm 1
        · rw [if_pos h2] at heq
          rw [foldLog_of_foldP heq]
          exact hmem
        · rw [if_neg h2] at heq
          by_cases h3 : fold l = .FloatImm 1
          · rw [if_pos h3] at heq
            rw [foldLog_of_foldP heq]
            exact hmem
          · rw [if_neg h3] at heq
            by_cases h4 : fold r = .FloatImm 1
            · rw [if_pos h4] at heq
              rw [foldLog_of_foldP heq]
              exact hmem
            · rw [if_neg h4] at heq
              rcases mulBroadcastL_cases (.Mul l r) l r (fold l) (fold r)
                  (foldLog l ++ foldLog r) with ⟨_, hres⟩ | ⟨_, hres⟩
              · rw [hres] at heq
                rw [foldLog_of_foldP heq]
                exact hmem
              · rw [hres] at heq
                rcases mulBroadcastR_cases (.Mul l r) l r (fold l) (fold r)
                    (foldLog l ++ foldLog r) with ⟨_, hres2⟩ | ⟨_, hres2⟩
                · rw [hres2] at heq
                  rw [foldLog_of_foldP heq]
                  exact hmem
                · rw [hres2] at heq
                  rw [foldLog_of_foldP heq]
                  exact foldFinish_log_ok Expr.Mul l r _ (fun a b => rfl)
                    (fun a b op ps h => by cases h) hmem
    case Mod l r =>
      have hmem : ∀ x ∈ foldLog l ++ foldLog r, evalCallOK x := by
        intro x hx
        rcases List.mem_append.mp hx with hx1 | hx2
        · exact ih (esize l) (by simp [esize] at he; omega) l le_rfl x hx1
        · exact ih (esize r) (by simp [esize] at he; omega) r le_rfl x hx2
      have heq : foldP (.Mod l r)
          = foldFinish Expr.Mod (.Mod l r) l r (fold l) (fold r) (foldLog l ++ foldLog r) := by
        rw [foldP_mod, binOpStep_eq _ _ _ _ rfl, foldFinish_eq _ _ _ _ _ _ _ rfl]
      rw [foldLog_of_foldP heq]
      exact foldFinish_log_ok Expr.Mod l r _ (fun a b => rfl)
        (fun a b op ps h => by cases h) hmem
    case And l r =>
      have hmem : ∀ x ∈ foldLog l ++ foldLog r, evalCallOK x := by
        intro x hx
        rcases List.mem_append.mp hx with hx1 | hx2
        · exact ih (esize l) (by simp [esize] at he; omega) l le_rfl x hx1
        · exact ih (esize r) (by simp [esize] at he; omega) r le_rfl x hx2
      have heq : foldP (.And l r)
          = foldFinish Expr.And (.And l r) l r (fold l) (fold r) (foldLog l ++ foldLog r) := by
        rw [foldP_and, binOpStep_eq _ _ _ _ rfl, foldFinish_eq _ _ _ _ _ _ _ rfl]
      rw [foldLog_of_foldP heq]
      exact foldFinish_log_ok Expr.And l r _ (fun a b => rfl)
        (fun a b op ps h => by cases h) hmem
    case Xor l r =>
      have hmem : ∀ x ∈ foldLog l ++ foldLog r, evalCallOK x := by
        intro x hx
        rcases List.mem_append.mp hx with hx1 | hx2
        · exact ih (esize l) (by simp [esize] at he; omega) l le_rfl x hx1
        · exact ih (esize r) (by simp [esize] at he; omega) r le_rfl x hx2
      have heq : foldP (.Xor l r)
          = foldFinish Expr.Xor (.Xor l r) l r (fold l) (fold r) (foldLog l ++ foldLog r) := by
        rw [foldP_xor, binOpStep_eq _ _ _ _ rfl, foldFinish_eq _ _ _ _ _ _ _ rfl]
      rw [foldLog_of_foldP heq]
      exact foldFinish_log_ok Expr.Xor l r _ (fun a b => rfl)
        (fun a b op ps h => by cases h) hmem
    case Lshift l r =>
      have hmem : ∀ x ∈ foldLog l ++ foldLog r, evalCallOK x := by
        intro x hx
        rcases List.mem_append.mp hx with hx1 | hx2
        · exact ih (esize l) (by simp [esize] at he; omega) l le_rfl x hx1
        · exact ih (esize r) (by simp [esize] at he; omega) r le_rfl x hx2
      have heq : foldP (.Lshift l r)
          = foldFinish Expr.Lshift (.Lshift l r) l r (fold l) (fold r)
              (foldLog l ++ foldLog r) := by
        rw [foldP_lshift, binOpStep_eq _ _ _ _ rfl, foldFinish_eq _ _ _ _ _ _ _ rfl]
      rw [foldLog_of_foldP heq]
      exact foldFinish_log_ok Expr.Lshift l r _ (fun a b => rfl)
        (fun a b op ps h => by cases h) hmem
    case Rshift l r =>
      have hmem : ∀ x ∈ foldLog l ++ foldLog r, evalCallOK x := by
        intro x hx
        rcases List.mem_append.mp hx with hx1 | hx2
        · exact ih (esize l) (by simp [esize] at he; omega) l le_rfl x hx1
        · exact ih (esize r) (by simp [esize] at he; omega) r le_rfl x hx2
      have heq : foldP (.Rshift l r)
          = foldFinish Expr.Rshift (.Rshift l r) l r (fold l) (fold r)
              (foldLog l ++ foldLog r) := by
        rw [foldP_rshift, binOpStep_eq _ _ _ _ rfl, foldFinish_eq _ _ _ _ _ _ _ rfl]
      rw [foldLog_of_foldP heq]
      exact foldFinish_log_ok Expr.Rshift l r _ (fun a b => rfl)
        (fun a b op ps h => by cases h) hmem
    case Max l r pn =>
      have hmem : ∀ x ∈ foldLog l ++ foldLog r, evalCallOK x := by
        intro x hx
        rcases List.mem_append.mp hx with hx1 | hx2
        · exact ih (esize l) (by simp [esize] at he; omega) l le_rfl x hx1
        · exact ih (esize r) (by simp [esize] at he; omega) r le_rfl x hx2
      have heq : foldP (.Max l r pn)
          = foldFinish (fun a b => Expr.Max a b pn) (.Max l r pn) l r (fold l) (fold r)
              (foldLog l ++ foldLog r) := by
        rw [foldP_max, binOpStep_eq _ _ _ _ rfl, foldFinish_eq _ _ _ _ _ _ _ rfl]
      rw [foldLog_of_foldP heq]
      exact foldFinish_log_ok (fun a b => Expr.Max a b pn) l r _ (fun a b => rfl)
        (fun a b op ps h => by cases h) hmem
    case Min l r pn =>
      have hmem : ∀ x ∈ foldLog l ++ foldLog r, evalCallOK x := by
        intro x hx
        rcases List.mem_append.mp hx with hx1 | hx2
        · exact ih (esize l) (by simp [esize] at he; omega) l le_rfl x hx1
        · exact ih (esize r) (by simp [esize] at he; omega) r le_rfl x hx2
      have heq : foldP (.Min l r pn)
          = foldFinish (fun a b => Expr.Min a b pn) (.Min l r pn) l r (fold l) (fold r)
              (foldLog l ++ foldLog r) := by
        rw [foldP_min, binOpStep_eq _ _ _ _ rfl, foldFinish_eq _ _ _ _ _ _ _ rfl]
      rw [foldLog_of_foldP heq]
      exact foldFinish_log_ok (fun a b => Expr.Min a b pn) l r _ (fun a b => rfl)
        (fun a b op ps h => by cases h) hmem

/-- C4: every argument the pass hands to `evaluateOp` during a fold has all
of its direct operands constant, and an intrinsic call is only handed over
when its operation is pure. -/
theorem c4_eval_precondition (e x : Expr) (hx : x ∈ foldLog e) :
    childrenConstant x = true ∧ ∀ op ps, x = .Intrinsics op ps → isPureOp op = true :=
  foldLog_ok_aux (esize e) e le_rfl x hx

theorem c4_eval_precondition_witness :
    (Expr.Add (.IntImm 2) (.IntImm 3)) ∈ foldLog (.Add (.IntImm 2) (.IntImm 3)) ∧
    childrenConstant (Expr.Add (.IntImm 2) (.IntImm 3)) = true :=
  ⟨by decide,
   (c4_eval_precondition (.Add (.IntImm 2) (.IntImm 3)) (.Add (.IntImm 2) (.IntImm 3))
     (by decide)).1⟩

theorem numBin_kind (fi : Int → Int → Int) (ff : Rat → Rat → Rat) (a b : Value) :
    valKind (numBin fi ff a b) = promoteScalar (valKind a) (valKind b) := by
  cases a <;> cases b <;> rfl

theorem promote_sint_left (s : ScalarType) : promoteScalar .SInt s = s := by
  cases s <;> rfl

theorem promote_sint_right (s : ScalarType) : promoteScalar s .SInt = s := by
  cases s <;> rfl

theorem convert_of_kind (s : ScalarType) (v : Value) (h : valKind v = s) :
    convertVal s v = v := by
  cases v <;> rw [← h] <;> rfl

theorem pureConstExprL_eq_all : ∀ ps : List Expr,
    pureConstExprL ps = ps.all pureConstExpr := by
  intro ps
  induction ps with
  | nil => rfl
  | cons q qs ihq => simp [pureConstExprL, ihq]

theorem pureConst_const_aux : ∀ (n : Nat) (e : Expr), esize e ≤ n →
    pureConstExpr e = true → isConstant e = true := by
  intro n
  induction n using Nat.strong_induction_on with
  | _ n ih =>
    intro e he hp
    cases e <;> simp only [pureConstExpr, Bool.false_eq_true, Bool.and_eq_true] at hp
    case IntImm a => simp [isConstant]
    case FloatImm a => simp [isConstant]
    case Intrinsics op ps =>
      rw [show isConstant (.Intrinsics op ps) = (isPureOp op && isConstantL ps) from rfl,
        Bool.and_eq_true]
      refine ⟨hp.1, ?_⟩
      rw [isConstantL_eq_all, List.all_eq_true]
      intro p hmem
      have hall := hp.2
      rw [pureConstExprL_eq_all, List.all_eq_true] at hall
      have := esizeL_mem ps p hmem
      exact ih (esize p) (by simp [esize] at he; omega) p le_rfl (hall p hmem)
    case Max l r pn =>
      simp only [isConstant, Bool.and_eq_true]
      exact ⟨ih (esize l) (by simp [esize] at he; omega) l le_rfl hp.1,
             ih (esize r) (by simp [esize] at he; omega) r le_rfl hp.2⟩
    case Min l r pn =>
      simp only [isConstant, Bool.and_eq_true]
      exact ⟨ih (esize l) (by simp [esize] at he; omega) l le_rfl hp.1,
             ih (esize r) (by simp [esize] at he; omega) r le_rfl hp.2⟩
    all_goals
      (rename_i l r
       simp only [isConstant, Bool.and_eq_true]
       exact ⟨ih (esize l) (by simp [esize] at he; omega) l le_rfl hp.1,
              ih (esize r) (by simp [esize] at he; omega) r le_rfl hp.2⟩)

theorem evalK_kind_aux : ∀ (n : Nat) (e : Expr), esize e ≤ n → WellTyped e = true →
    pureConstExpr e = true → valKind (evalK e) = (dtype e).scalar := by
  intro n
  induction n using Nat.strong_induction_on with
  | _ n ih =>
    intro e he hw hp
    cases e <;> simp only [pureConstExpr, Bool.false_eq_true, Bool.and_eq_true] at hp
    case IntImm a => rfl
    case FloatImm a => rfl
    case Intrinsics op ps =>
      cases op
      case rand => simp [isPureOp] at hp
      case sqrt =>
        match ps with
        | [] => simp [WellTyped, wtIntr] at hw
        | [p] =>
          simp only [WellTyped, wtIntr, Bool.and_eq_true, decide_eq_true_eq] at hw
          rw [show evalK (.Intrinsics .sqrt [p])
            = intrinsicEval .sqrt [evalK p] from rfl]
          rw [show dtype (.Intrinsics .sqrt [p]) = dtype p from rfl, hw.2]
          rfl
        | p :: q :: rest => simp [WellTyped, wtIntr] at hw
    case Max l r pn =>
      simp only [WellTyped, Bool.and_eq_true, decide_eq_true_eq] at hw
      have ihl := ih (esize l) (by simp [esize] at he; omega) l le_rfl hw.1.1 hp.1
      have ihr := ih (esize r) (by simp [esize] at he; omega) r le_rfl hw.1.2 hp.2
      rw [show evalK (.Max l r pn) = numBin max max (evalK l) (evalK r) from rfl,
        numBin_kind, ihl, ihr]
      rfl
    case Min l r pn =>
      simp only [WellTyped, Bool.and_eq_true, decide_eq_true_eq] at hw
      have ihl := ih (esize l) (by simp [esize] at he; omega) l le_rfl hw.1.1 hp.1
      have ihr := ih (esize r) (by simp [esize] at he; omega) r le_rfl hw.1.2 hp.2
      rw [show evalK (.Min l r pn) = numBin min min (evalK l) (evalK r) from rfl,
        numBin_kind, ihl, ihr]
      rfl
    all_goals
      (rename_i l r
       simp only [WellTyped, Bool.and_eq_true, decide_eq_true_eq] at hw
       have ihl := ih (esize l) (by simp [esize] at he; omega) l le_rfl hw.1.1 hp.1
       have ihr := ih (esize r) (by simp [esize] at he; omega) r le_rfl hw.1.2 hp.2
       simp only [evalK, numBin_kind, ihl, ihr, dtype])

theorem evaluateOp_const (v : Expr) : isConstant (evaluateOp v) = true := by
  unfold evaluateOp
  cases (dtype v).scalar <;> simp [isConstant]

theorem evalK_evaluateOp (v : Expr) :
    evalK (evaluateOp v) = convertVal (dtype v).scalar (evalK v) := by
  unfold evaluateOp
  cases (dtype v).scalar <;> rfl

theorem evaluateOp_congr {a b : Expr} (hs : (dtype a).scalar = (dtype b).scalar)
    (hv : evalK a = evalK b) : evaluateOp a = evaluateOp b := by
  unfold evaluateOp
  rw [hs, hv]

theorem evaluateOp_eq_intImm {l : Expr} {m : Int}
    (hk : valKind (evalK l) = (dtype l).scalar) (h : evaluateOp l = .IntImm m) :
    (dtype l).scalar = .SInt ∧ evalK l = .VInt m := by
  unfold evaluateOp at h
  cases hs : (dtype l).scalar <;> rw [hs] at h
  · rw [hs] at hk
    cases hv : evalK l
    case VInt k =>
      rw [hv] at h
      injection h with h2
      rw [show toInt (Value.VInt k) = k from rfl] at h2
      exact ⟨rfl, by rw [h2]⟩
    case VFloat q =>
      rw [hv] at hk
      simp [valKind] at hk
  · cases h

theorem evaluateOp_eq_floatImm {l : Expr} {q : Rat}
    (hk : valKind (evalK l) = (dtype l).scalar) (h : evaluateOp l = .FloatImm q) :
    (dtype l).scalar = .SFloat ∧ evalK l = .VFloat q := by
  unfold evaluateOp at h
  cases hs : (dtype l).scalar <;> rw [hs] at h
  · cases h
  · rw [hs] at hk
    cases hv : evalK l
    case VInt k =>
      rw [hv] at hk
      simp [valKind] at hk
    case VFloat p =>
      rw [hv] at h
      injection h with h2
      rw [show toRat (Value.VFloat p) = p from rfl] at h2
      exact ⟨rfl, by rw [h2]⟩

theorem addZeroL (v : Value) : numBin (· + ·) (· + ·) (.VInt 0) v = v := by
  cases v <;> simp [numBin, toRat]

theorem addZeroR (v : Value) : numBin (· + ·) (· + ·) v (.VInt 0) = v := by
  cases v <;> simp [numBin, toRat]

theorem mulOneLInt (v : Value) : numBin (· * ·) (· * ·) (.VInt 1) v = v := by
  cases v <;> simp [numBin, toRat]

theorem mulOneRInt (v : Value) : numBin (· * ·) (· * ·) v (.VInt 1) = v := by
  cases v <;> simp [numBin, toRat]

theorem mulOneLFloat (v : Value) (h : valKind v = .SFloat) :
    numBin (· * ·) (· * ·) (.VFloat 1) v = v := by
  cases v
  · simp [valKind] at h
  · simp [numBin, toRat]

theorem mulOneRFloat (v : Value) (h : valKind v = .SFloat) :
    numBin (· * ·) (· * ·) v (.VFloat 1) = v := by
  cases v
  · simp [valKind] at h
  · simp [numBin, toRat]

theorem subZeroR (v : Value) : numBin (· - ·) (· - ·) v (.VInt 0) = v := by
  cases v <;> simp [numBin, toRat]

theorem divOneR (v : Value) : numBin intDiv (· / ·) v (.VInt 1) = v := by
  cases v <;> simp [numBin, toRat, intDiv, Int.tdiv_one]

theorem imm_not_b0 (v : Expr) (h : isImm v = true) : isBroadcastOf0 v = false := by
  cases v <;> simp [isImm, isBroadcastOf0] at h ⊢

theorem imm_not_b1 (v : Expr) (h : isImm v = true) : isBroadcastOf1 v = false := by
  cases v <;> simp [isImm, isBroadcastOf1] at h ⊢

theorem foldFinish_fst_pure (mk : Expr → Expr → Expr) (l r : Expr) (lg : List Expr)
    (f : Value → Value → Value)
    (hIl : fold l = evaluateOp l) (hIr : fold r = evaluateOp r)
    (hkl : valKind (evalK l) = (dtype l).scalar)
    (hkr : valKind (evalK r) = (dtype r).scalar)
    (hmk_evalK : ∀ a b, evalK (mk a b) = f (evalK a) (evalK b))
    (hmk_scalar : ∀ a b, (dtype (mk a b)).scalar
      = promoteScalar (dtype a).scalar (dtype b).scalar) :
    (foldFinish mk (mk l r) l r (fold l) (fold r) lg).1 = evaluateOp (mk l r) := by
  rw [foldFinish_eq _ _ _ _ _ _ _ rfl]
  have hg : (isConstant (fold l) && isConstant (fold r)) = true := by
    rw [hIl, hIr, evaluateOp_const, evaluateOp_const]
    rfl
  rw [if_pos hg]
  show evaluateOp (mk (fold l) (fold r)) = evaluateOp (mk l r)
  apply evaluateOp_congr
  · rw [hmk_scalar, hmk_scalar, hIl, hIr, dtype_evaluateOp, dtype_evaluateOp]
  · rw [hmk_evalK, hmk_evalK, hIl, hIr, evalK_evaluateOp, evalK_evaluateOp,
      convert_of_kind _ _ hkl, convert_of_kind _ _ hkr]

theorem evalK_kind (e : Expr) (hw : WellTyped e = true) (hp : pureConstExpr e = true) :
    valKind (evalK e) = (dtype e).scalar :=
  evalK_kind_aux (esize e) e le_rfl hw hp

theorem pureConst_const (e : Expr) (hp : pureConstExpr e = true) : isConstant e = true :=
  pureConst_const_aux (esize e) e le_rfl hp

theorem c1_aux : ∀ (n : Nat) (e : Expr), esize e ≤ n → WellTyped e = true →
    pureConstExpr e = true → fold e = evaluateOp e := by
  intro n
  induction n using Nat.strong_induction_on with
  | _ n ih =>
    intro e he hw hp
    cases e <;> simp only [pureConstExpr, Bool.false_eq_true, Bool.and_eq_true] at hp
    case IntImm a => rfl
    case FloatImm a => rfl
    case Intrinsics op ps =>
      cases op
      case rand => simp [isPureOp] at hp
      case sqrt =>
        match ps with
        | [] => simp [WellTyped, wtIntr] at hw
        | [p] =>
          simp only [WellTyped, wtIntr, Bool.and_eq_true, decide_eq_true_eq] at hw
          have hpp : pureConstExpr p = true := by
            have := hp.2
            simp [pureConstExprL] at this
            exact this
          have IHp := ih (esize p) (by simp [esize, esizeL] at he; omega) p le_rfl hw.1 hpp
          have hkp := evalK_kind p hw.1 hpp
          have hg : ((List.map fold [p]).all isConstant && isPureOp .sqrt) = true := by
            simp [IHp, evaluateOp_const p, isPureOp]
          have hP : foldP (.Intrinsics .sqrt [p])
              = (evaluateOp (.Intrinsics .sqrt (List.map fold [p])),
                 (List.map foldLog [p]).flatten
                   ++ [.Intrinsics .sqrt (List.map fold [p])]) := by
            rw [foldP_intrinsics, if_pos hg]
          rw [fold_of_foldP hP]
          show evaluateOp (.Intrinsics .sqrt (List.map fold [p]))
              = evaluateOp (.Intrinsics .sqrt [p])
          apply evaluateOp_congr
          · show (dtype (fold p)).scalar = (dtype p).scalar
            rw [IHp, dtype_evaluateOp]
          · show intrinsicEval .sqrt [evalK (fold p)] = intrinsicEval .sqrt [evalK p]
            rw [IHp, evalK_evaluateOp, convert_of_kind _ _ hkp]
        | p :: q :: rest => simp [WellTyped, wtIntr] at hw
    case Add l r =>
      obtain ⟨hpl, hpr⟩ := hp
      simp only [WellTyped, Bool.and_eq_true, decide_eq_true_eq] at hw
      obtain ⟨⟨hwl, hwr⟩, hlr⟩ := hw
      have IHl := ih (esize l) (by simp [esize] at he; omega) l le_rfl hwl hpl
      have IHr := ih (esize r) (by simp [esize] at he; omega) r le_rfl hwr hpr
      have hkl := evalK_kind l hwl hpl
      have hkr := evalK_kind r hwr hpr
      have heq := foldP_add l r
      by_cases h1 : fold l = .IntImm 0
      · rw [if_pos h1] at heq
        rw [fold_of_foldP heq]
        have hinv := evaluateOp_eq_intImm hkl (IHl.symm.trans h1)
        show fold r = evaluateOp (.Add l r)
        rw [IHr]
        apply evaluateOp_congr
        · show (dtype r).scalar = (dtype (.Add l r)).scalar
          rw [show (dtype (.Add l r)).scalar
            = promoteScalar (dtype l).scalar (dtype r).scalar from rfl, hinv.1,
            promote_sint_left]
        · show evalK r = evalK (.Add l r)
          rw [show evalK (.Add l r)
            = numBin (· + ·) (· + ·) (evalK l) (evalK r) from rfl, hinv.2, addZeroL]
      · rw [if_neg h1] at heq
        by_cases h2 : fold r = .IntImm 0
        · rw [if_pos h2] at heq
          rw [fold_of_foldP heq]
          have hinv := evaluateOp_eq_intImm hkr (IHr.symm.trans h2)
          show fold l = evaluateOp (.Add l r)
          rw [IHl]
          apply evaluateOp_congr
          · show (dtype l).scalar = (dtype (.Add l r)).scalar
            rw [show (dtype (.Add l r)).scalar
              = promoteScalar (dtype l).scalar (dtype r).scalar from rfl, hinv.1,
              promote_sint_right]
          · show evalK l = evalK (.Add l r)
            rw [show evalK (.Add l r)
              = numBin (· + ·) (· + ·) (evalK l) (evalK r) from rfl, hinv.2, addZeroR]
        · rw [if_neg h2] at heq
          have himl : isImm (fold l) = true := by rw [IHl]; exact evaluateOp_isImm l
          have himr : isImm (fold r) = true := by rw [IHr]; exact evaluateOp_isImm r
          rcases addRampL_cases foldP (.Add l r) l r (fold l) (fold r)
              (foldLog l ++ foldLog r) with
            ⟨hb0, _⟩ | ⟨bv, L, base, stride, L2, hlB, _, _, _⟩ | ⟨_, _, hres⟩
          · rw [imm_not_b0 _ himl] at hb0
            cases hb0
          · rw [hlB] at himl
            simp [isImm] at himl
          · rw [hres] at heq
            rcases addRampR_cases foldP (.Add l r) l r (fold l) (fold r)
                (foldLog l ++ foldLog r) with
              ⟨hb0, _⟩ | ⟨bv, L, base, stride, L2, hrB, _, _, _⟩ | ⟨_, _, hres2⟩
            · rw [imm_not_b0 _ himr] at hb0
              cases hb0
            · rw [hrB] at himr
              simp [isImm] at himr
            · rw [hres2] at heq
              rw [fold_of_foldP heq]
              exact foldFinish_fst_pure Expr.Add l r _ (numBin (· + ·) (· + ·))
                IHl IHr hkl hkr (fun a b => rfl) (fun a b => rfl)
    case Sub l r =>
      obtain ⟨hpl, hpr⟩ := hp
      simp only [WellTyped, Bool.and_eq_true, decide_eq_true_eq] at hw
      obtain ⟨⟨hwl, hwr⟩, hlr⟩ := hw
      have IHl := ih (esize l) (by simp [esize] at he; omega) l le_rfl hwl hpl
      have IHr := ih (esize r) (by simp [esize] at he; omega) r le_rfl hwr hpr
      have hkl := evalK_kind l hwl hpl
      have hkr := evalK_kind r hwr hpr
      have heq := foldP_sub l r
      by_cases h2 : fold r = .IntImm 0
      · rw [if_pos h2] at heq
        rw [fold_of_foldP heq]
        have hinv := evaluateOp_eq_intImm hkr (IHr.symm.trans h2)
        show fold l = evaluateOp (.Sub l r)
        rw [IHl]
        apply evaluateOp_congr
        · show (dtype l).scalar = (dtype (.Sub l r)).scalar
          rw [show (dtype (.Sub l r)).scalar
            = promoteScalar (dtype l).scalar (dtype r).scalar from rfl, hinv.1,
            promote_sint_right]
        · show evalK l = evalK (.Sub l r)
          rw [show evalK (.Sub l r)
            = numBin (· - ·) (· - ·) (evalK l) (evalK r) from rfl, hinv.2, subZeroR]
      · rw [if_neg h2] at heq
        have heq2 : foldP (.Sub l r)
            = foldFinish Expr.Sub (.Sub l r) l r (fold l) (fold r)
                (foldLog l ++ foldLog r) := by
          rw [heq, foldFinish_eq _ _ _ _ _ _ _ rfl]
        rw [fold_of_foldP heq2]
        exact foldFinish_fst_pure Expr.Sub l r _ (numBin (· - ·) (· - ·))
          IHl IHr hkl hkr (fun a b => rfl) (fun a b => rfl)
    case Div l r =>
      obtain ⟨hpl, hpr⟩ := hp
      simp only [WellTyped, Bool.and_eq_true, decide_eq_true_eq] at hw
      obtain ⟨⟨hwl, hwr⟩, hlr⟩ := hw
      have IHl := ih (esize l) (by simp [esize] at he; omega) l le_rfl hwl hpl
      have IHr := ih (esize r) (by simp [esize] at he; omega) r le_rfl hwr hpr
      have hkl := evalK_kind l hwl hpl
      have hkr := evalK_kind r hwr hpr
      have heq := foldP_div l r
      by_cases h2 : fold r = .IntImm 1
      · rw [if_pos h2] at heq
        rw [fold_of_foldP heq]
        have hinv := evaluateOp_eq_intImm hkr (IHr.symm.trans h2)
        show fold l = evaluateOp (.Div l r)
        rw [IHl]
        apply evaluateOp_congr
        · show (dtype l).scalar = (dtype (.Div l r)).scalar
          rw [show (dtype (.Div l r)).scalar
            = promoteScalar (dtype l).scalar (dtype r).scalar from rfl, hinv.1,
            promote_sint_right]
        · show evalK l = evalK (.Div l r)
          rw [show evalK (.Div l r)
            = numBin intDiv (· / ·) (evalK l) (evalK r) from rfl, hinv.2, divOneR]
      · rw [if_neg h2] at heq
        have heq2 : foldP (.Div l r)
            = foldFinish Expr.Div (.Div l r) l r (fold l) (fold r)
                (foldLog l ++ foldLog r) := by
          rw [heq, foldFinish_eq _ _ _ _ _ _ _ rfl]
        rw [fold_of_foldP heq2]
        exact foldFinish_fst_pure Expr.Div l r _ (numBin intDiv (· / ·))
          IHl IHr hkl hkr (fun a b => rfl) (fun a b => rfl)
    case Mul l r =>
      obtain ⟨hpl, hpr⟩ := hp
      simp only [WellTyped, Bool.and_eq_true, decide_eq_true_eq] at hw
      obtain ⟨⟨hwl, hwr⟩, hlr⟩ := hw
      have IHl := ih (esize l) (by simp [esize] at he; omega) l le_rfl hwl hpl
      have IHr := ih (esize r) (by simp [esize] at he; omega) r le_rfl hwr hpr
      have hkl := evalK_kind l hwl hpl
      have hkr := evalK_kind r hwr hpr
      have heq := foldP_mul l r
      by_cases h1 : fold l = .IntImm 1
      · rw [if_pos h1] at heq
        rw [fold_of_foldP heq]
        have hinv := evaluateOp_eq_intImm hkl (IHl.symm.trans h1)
        show fold r = evaluateOp (.Mul l r)
        rw [IHr]
        apply evaluateOp_congr
        · show (dtype r).scalar = (dtype (.Mul l r)).scalar
          rw [show (dtype (.Mul l r)).scalar
            = promoteScalar (dtype l).scalar (dtype r).scalar from rfl, hinv.1,
            promote_sint_left]
        · show evalK r = evalK (.Mul l r)
          rw [show evalK (.Mul l r)
            = numBin (· * ·) (· * ·) (evalK l) (evalK r) from rfl, hinv.2, mulOneLInt]
      · rw [if_neg h1] at heq
        by_cases h2 : fold r = .IntImm 1
        · rw [if_pos h2] at heq
          rw [fold_of_foldP heq]
          have hinv := evaluateOp_eq_intImm hkr (IHr.symm.trans h2)
          show fold l = evaluateOp (.Mul l r)
          rw [IHl]
          apply evaluateOp_congr
          · show (dtype l).scalar = (dtype (.Mul l r)).scalar
            rw [show (dtype (.Mul l r)).scalar
              = promoteScalar (dtype l).scalar (dtype r).scalar from rfl, hinv.1,
              promote_sint_right]
          · show evalK l = evalK (.Mul l r)
            rw [show evalK (.Mul l r)
              = numBin (· * ·) (· * ·) (evalK l) (evalK r) from rfl, hinv.2, mulOneRInt]
        · rw [if_neg h2] at heq
          by_cases h3 : fold l = .FloatImm 1
          · rw [if_pos h3] at heq
            rw [fold_of_foldP heq]
            have hinv := evaluateOp_eq_floatImm hkl (IHl.symm.trans h3)
            have hscr : (dtype r).scalar = .SFloat := by rw [← hlr, ← hinv.1]
            show fold r = evaluateOp (.Mul l r)
            rw [IHr]
            apply evaluateOp_congr
            · show (dtype r).scalar = (dtype (.Mul l r)).scalar
              rw [show (dtype (.Mul l r)).scalar
                = promoteScalar (dtype l).scalar (dtype r).scalar from rfl, hinv.1, hscr]
              rfl
            · show evalK r = evalK (.Mul l r)
              rw [show evalK (.Mul l r)
                = numBin (· * ·) (· * ·) (evalK l) (evalK r) from rfl, hinv.2,
                mulOneLFloat _ (by rw [hkr, hscr])]
          · rw [if_neg h3] at heq
            by_cases h4 : fold r = .FloatImm 1
            · rw [if_pos h4] at heq
              rw [fold_of_foldP heq]
              have hinv := evaluateOp_eq_floatImm hkr (IHr.symm.trans h4)
              have hscl : (dtype l).scalar = .SFloat := by rw [hlr, hinv.1]
              show fold l = evaluateOp (.Mul l r)
              rw [IHl]
              apply evaluateOp_congr
              · show (dtype l).scalar = (dtype (.Mul l r)).scalar
                rw [show (dtype (.Mul l r)).scalar
                  = promoteScalar (dtype l).scalar (dtype r).scalar from rfl, hinv.1, hscl]
                rfl
              · show evalK l = evalK (.Mul l r)
                rw [show evalK (.Mul l r)
                  = numBin (· * ·) (· * ·) (evalK l) (evalK r) from rfl, hinv.2,
                  mulOneRFloat _ (by rw [hkl, hscl])]
            · rw [if_neg h4] at heq
              have himl : isImm (fold l) = true := by rw [IHl]; exact evaluateOp_isImm l
              have himr : isImm (fold r) = true := by rw [IHr]; exact evaluateOp_isImm r
              rcases mulBroadcastL_cases (.Mul l r) l r (fold l) (fold r)
                  (foldLog l ++ foldLog r) with ⟨hb1, _⟩ | ⟨_, hres⟩
              · rw [imm_not_b1 _ himl] at hb1
                cases hb1
              · rw [hres] at heq
                rcases mulBroadcastR_cases (.Mul l r) l r (fold l) (fold r)
                    (foldLog l ++ foldLog r) with ⟨hb1, _⟩ | ⟨_, hres2⟩
                · rw [imm_not_b1 _ himr] at hb1
                  cases hb1
                · rw [hres2] at heq
                  rw [fold_of_foldP heq]
                  exact foldFinish_fst_pure Expr.Mul l r _ (numBin (· * ·) (· * ·))
                    IHl IHr hkl hkr (fun a b => rfl) (fun a b => rfl)
    case Mod l r =>
      obtain ⟨hpl, hpr⟩ := hp
      simp only [WellTyped, Bool.and_eq_true, decide_eq_true_eq] at hw
      obtain ⟨⟨hwl, hwr⟩, hlr⟩ := hw
      have IHl := ih (esize l) (by simp [esize] at he; omega) l le_rfl hwl hpl
      have IHr := ih (esize r) (by simp [esize] at he; omega) r le_rfl hwr hpr
      have heq2 : foldP (.Mod l r)
          = foldFinish Expr.Mod (.Mod l r) l r (fold l) (fold r)
              (foldLog l ++ foldLog r) := by
        rw [foldP_mod, binOpStep_eq _ _ _ _ rfl, foldFinish_eq _ _ _ _ _ _ _ rfl]
      rw [fold_of_foldP heq2]
      exact foldFinish_fst_pure Expr.Mod l r _ (numBin intMod ratMod)
        IHl IHr (evalK_kind l hwl hpl) (evalK_kind r hwr hpr)
        (fun a b => rfl) (fun a b => rfl)
    case And l r =>
      obtain ⟨hpl, hpr⟩ := hp
      simp only [WellTyped, Bool.and_eq_true, decide_eq_true_eq] at hw
      obtain ⟨⟨hwl, hwr⟩, hlr⟩ := hw
      have IHl := ih (esize l) (by simp [esize] at he; omega) l le_rfl hwl hpl
      have IHr := ih (esize r) (by simp [esize] at he; omega) r le_rfl hwr hpr
      have heq2 : foldP (.And l r)
          = foldFinish Expr.And (.And l r) l r (fold l) (fold r)
              (foldLog l ++ foldLog r) := by
        rw [foldP_and, binOpStep_eq _ _ _ _ rfl, foldFinish_eq _ _ _ _ _ _ _ rfl]
      rw [fold_of_foldP heq2]
      exact foldFinish_fst_pure Expr.And l r _ (numBin intAnd (fun _ _ => 0))
        IHl IHr (evalK_kind l hwl hpl) (evalK_kind r hwr hpr)
        (fun a b => rfl) (fun a b => rfl)
    case Xor l r =>
      obtain ⟨hpl, hpr⟩ := hp
      simp only [WellTyped, Bool.and_eq_true, decide_eq_true_eq] at hw
      obtain ⟨⟨hwl, hwr⟩, hlr⟩ := hw
      have IHl := ih (esize l) (by simp [esize] at he; omega) l le_rfl hwl hpl
      have IHr := ih (esize r) (by simp [esize] at he; omega) r le_rfl hwr hpr
      have heq2 : foldP (.Xor l r)
          = foldFinish Expr.Xor (.Xor l r) l r (fold l) (fold r)
              (foldLog l ++ foldLog r) := by
        rw [foldP_xor, binOpStep_eq _ _ _ _ rfl, foldFinish_eq _ _ _ _ _ _ _ rfl]
      rw [fold_of_foldP heq2]
      exact foldFinish_fst_pure Expr.Xor l r _ (numBin intXor (fun _ _ => 0))
        IHl IHr (evalK_kind l hwl hpl) (evalK_kind r hwr hpr)
        (fun a b => rfl) (fun a b => rfl)
    case Lshift l r =>
      obtain ⟨hpl, hpr⟩ := hp
      simp only [WellTyped, Bool.and_eq_true, decide_eq_true_eq] at hw
      obtain ⟨⟨hwl, hwr⟩, hlr⟩ := hw
      have IHl := ih (esize l) (by simp [esize] at he; omega) l le_rfl hwl hpl
      have IHr := ih (esize r) (by simp [esize] at he; omega) r le_rfl hwr hpr
      have heq2 : foldP (.Lshift l r)
          = foldFinish Expr.Lshift (.Lshift l r) l r (fold l) (fold r)
              (foldLog l ++ foldLog r) := by
        rw [foldP_lshift, binOpStep_eq _ _ _ _ rfl, foldFinish_eq _ _ _ _ _ _ _ rfl]
      rw [fold_of_foldP heq2]
      exact foldFinish_fst_pure Expr.Lshift l r _ (numBin intShiftL (fun _ _ => 0))
        IHl IHr (evalK_kind l hwl hpl) (evalK_kind r hwr hpr)
        (fun a b => rfl) (fun a b => rfl)
    case Rshift l r =>
      obtain ⟨hpl, hpr⟩ := hp
      simp only [WellTyped, Bool.and_eq_true, decide_eq_true_eq] at hw
      obtain ⟨⟨hwl, hwr⟩, hlr⟩ := hw
      have IHl := ih (esize l) (by simp [esize] at he; omega) l le_rfl hwl hpl
      have IHr := ih (esize r) (by simp [esize] at he; omega) r le_rfl hwr hpr
      have heq2 : foldP (.Rshift l r)
          = foldFinish Expr.Rshift (.Rshift l r) l r (fold l) (fold r)
              (foldLog l ++ foldLog r) := by
        rw [foldP_rshift, binOpStep_eq _ _ _ _ rfl, foldFinish_eq _ _ _ _ _ _ _ rfl]
      rw [fold_of_foldP heq2]
      exact foldFinish_fst_pure Expr.Rshift l r _ (numBin intShiftR (fun _ _ => 0))
        IHl IHr (evalK_kind l hwl hpl) (evalK_kind r hwr hpr)
        (fun a b => rfl) (fun a b => rfl)
    case Max l r pn =>
      obtain ⟨hpl, hpr⟩ := hp
      simp only [WellTyped, Bool.and_eq_true, decide_eq_true_eq] at hw
      obtain ⟨⟨hwl, hwr⟩, hlr⟩ := hw
      have IHl := ih (esize l) (by simp [esize] at he; omega) l le_rfl hwl hpl
      have IHr := ih (esize r) (by simp [esize] at he; omega) r le_rfl hwr hpr
      have heq2 : foldP (.Max l r pn)
          = foldFinish (fun a b => Expr.Max a b pn) (.Max l r pn) l r (fold l) (fold r)
              (foldLog l ++ foldLog r) := by
        rw [foldP_max, binOpStep_eq _ _ _ _ rfl, foldFinish_eq _ _ _ _ _ _ _ rfl]
      rw [fold_of_foldP heq2]
      exact foldFinish_fst_pure (fun a b => Expr.Max a b pn) l r _ (numBin max max)
        IHl IHr (evalK_kind l hwl hpl) (evalK_kind r hwr hpr)
        (fun a b => rfl) (fun a b => rfl)
    case Min l r pn =>
      obtain ⟨hpl, hpr⟩ := hp
      simp only [WellTyped, Bool.and_eq_true, decide_eq_true_eq] at hw
      obtain ⟨⟨hwl, hwr⟩, hlr⟩ := hw
      have IHl := ih (esize l) (by simp [esize] at he; omega) l le_rfl hwl hpl
      have IHr := ih (esize r) (by simp [esize] at he; omega) r le_rfl hwr hpr
      have heq2 : foldP (.Min l r pn)
          = foldFinish (fun a b => Expr.Min a b pn) (.Min l r pn) l r (fold l) (fold r)
              (foldLog l ++ foldLog r) := by
        rw [foldP_min, binOpStep_eq _ _ _ _ rfl, foldFinish_eq _ _ _ _ _ _ _ rfl]
      rw [fold_of_foldP heq2]
      exact foldFinish_fst_pure (fun a b => Expr.Min a b pn) l r _ (numBin min min)
        IHl IHr (evalK_kind l hwl hpl) (evalK_kind r hwr hpr)
        (fun a b => rfl) (fun a b => rfl)

/-- C1: For every well-typed expression all of whose leaves are immediates and
whose intrinsic calls are all pure (`sqrt`), the constant folder collapses the
whole expression to a single immediate, and that immediate is exactly what the
constant evaluator `evaluateOp` produces on the expression. -/
theorem c1_full_constant_collapse (e : Expr) (hw : WellTyped e = true)
    (hp : pureConstExpr e = true) :
    isImm (fold e) = true ∧ fold e = evaluateOp e := by
  have h := c1_aux (esize e) e le_rfl hw hp
  exact ⟨h ▸ evaluateOp_isImm e, h⟩

theorem c1_full_constant_collapse_witness :
    WellTyped (.Add (.IntImm 2) (.IntImm 3)) = true
      ∧ pureConstExpr (.Add (.IntImm 2) (.IntImm 3)) = true
      ∧ isImm (fold (.Add (.IntImm 2) (.IntImm 3))) = true
      ∧ fold (.Add (.IntImm 2) (.IntImm 3)) = evaluateOp (.Add (.IntImm 2) (.IntImm 3)) :=
  ⟨by decide, by decide,
   (c1_full_constant_collapse (.Add (.IntImm 2) (.IntImm 3)) (by decide) (by decide)).1,
   (c1_full_constant_collapse (.Add (.IntImm 2) (.IntImm 3)) (by decide) (by decide)).2⟩

theorem fold_imm (v : Expr) (h : isImm v = true) : fold v = v := by
  cases v
  case IntImm n => exact fold_of_foldP (foldP_int n)
  case FloatImm q => exact fold_of_foldP (foldP_float q)
  all_goals simp [isImm] at h

theorem binop_idem_case (mk : Expr → Expr → Expr) (l r : Expr)
    (hfold : foldP (mk l r) = binOpStep foldP mk (mk l r) l r)
    (hfold2 : foldP (mk (fold l) (fold r))
        = binOpStep foldP mk (mk (fold l) (fold r)) (fold l) (fold r))
    (hIl : fold (fold l) = fold l) (hIr : fold (fold r) = fold r) :
    fold (fold (mk l r)) = fold (mk l r) := by
  rw [binOpStep_eq mk (mk l r) l r rfl] at hfold
  rw [binOpStep_eq mk (mk (fold l) (fold r)) (fold l) (fold r) rfl] at hfold2
  rw [hIl, hIr] at hfold2
  by_cases hg : (isConstant (fold l) && isConstant (fold r)) = true
  · rw [if_pos hg] at hfold
    have h1 : fold (mk l r) = evaluateOp (mk (fold l) (fold r)) := fold_of_foldP hfold
    rw [h1]
    exact fold_imm _ (evaluateOp_isImm _)
  · rw [if_neg hg] at hfold hfold2
    have h1 : fold (mk l r) = mk (fold l) (fold r) := fold_of_foldP hfold
    rw [h1]
    exact fold_of_foldP hfold2

theorem fold_idem_aux : ∀ (n : Nat) (e : Expr), esize e ≤ n →
    fold (fold e) = fold e := by
  intro n
  induction n using Nat.strong_induction_on with
  | _ n ih =>
    intro e he
    cases e
    case Var nm d =>
      have h : fold (.Var nm d) = .Var nm d := fold_of_foldP (foldP_var nm d)
      rw [h]
      exact h
    case IntImm k =>
      have h : fold (.IntImm k) = .IntImm k := fold_of_foldP (foldP_int k)
      rw [h]
      exact h
    case FloatImm q =>
      have h : fold (.FloatImm q) = .FloatImm q := fold_of_foldP (foldP_float q)
      rw [h]
      exact h
    case Broadcast v L =>
      have IHv := ih (esize v) (by simp [esize] at he; omega) v le_rfl
      have hb : fold (.Broadcast v L) = .Broadcast (fold v) L :=
        fold_of_foldP (foldP_broadcast v L)
      have hb2 : fold (.Broadcast (fold v) L) = .Broadcast (fold (fold v)) L :=
        fold_of_foldP (foldP_broadcast (fold v) L)
      rw [hb, hb2, IHv]
    case Ramp b s L =>
      have IHb := ih (esize b) (by simp [esize] at he; omega) b le_rfl
      have IHs := ih (esize s) (by simp [esize] at he; omega) s le_rfl
      have hr : fold (.Ramp b s L) = .Ramp (fold b) (fold s) L :=
        fold_of_foldP (foldP_ramp b s L)
      have hr2 : fold (.Ramp (fold b) (fold s) L)
          = .Ramp (fold (fold b)) (fold (fold s)) L :=
        fold_of_foldP (foldP_ramp (fold b) (fold s) L)
      rw [hr, hr2, IHb, IHs]
    case Load dt bn bt i j =>
      have IHi := ih (esize i) (by simp [esize] at he; omega) i le_rfl
      have IHj := ih (esize j) (by simp [esize] at he; omega) j le_rfl
      have hl : fold (.Load dt bn bt i j) = .Load dt bn bt (fold i) (fold j) :=
        fold_of_foldP (foldP_load dt bn bt i j)
      have hl2 : fold (.Load dt bn bt (fold i) (fold j))
          = .Load dt bn bt (fold (fold i)) (fold (fold j)) :=
        fold_of_foldP (foldP_load dt bn bt (fold i) (fold j))
      rw [hl, hl2, IHi, IHj]
    case Cast t s =>
      have hc := foldP_cast t s
      by_cases h : isConstant s = true
      · rw [if_pos h] at hc
        rw [fold_of_foldP hc]
        show fold (evaluateOp (.Cast t s)) = evaluateOp (.Cast t s)
        exact fold_imm _ (evaluateOp_isImm _)
      · rw [if_neg h] at hc
        rw [fold_of_foldP hc]
        show fold (.Cast t s) = .Cast t s
        exact fold_of_foldP hc
    case Intrinsics op ps =>
      have hmap : ∀ p ∈ ps, fold (fold p) = fold p := by
        intro p hp
        have h1 := esizeL_mem ps p hp
        exact ih (esize p) (by simp [esize] at he; omega) p le_rfl
      have hmm : List.map fold (List.map fold ps) = List.map fold ps := by
        rw [List.map_map]
        exact List.map_congr_left (fun p hp => hmap p hp)
      have hi := foldP_intrinsics op ps
      by_cases hg : ((List.map fold ps).all isConstant && isPureOp op) = true
      · rw [if_pos hg] at hi
        rw [fold_of_foldP hi]
        show fold (evaluateOp (.Intrinsics op (List.map fold ps))) = evaluateOp (.Intrinsics op (List.map fold ps))
        exact fold_imm _ (evaluateOp_isImm _)
      · rw [if_neg hg] at hi
        rw [fold_of_foldP hi]
        show fold (.Intrinsics op (List.map fold ps)) = .Intrinsics op (List.map fold ps)
        have hi2 := foldP_intrinsics op (List.map fold ps)
        rw [hmm] at hi2
        rw [if_neg hg] at hi2
        exact fold_of_foldP hi2
    case Mod l r =>
      have IHl := ih (esize l) (by simp [esize] at he; omega) l le_rfl
      have IHr := ih (esize r) (by simp [esize] at he; omega) r le_rfl
      exact binop_idem_case .Mod l r (foldP_mod l r) (foldP_mod (fold l) (fold r)) IHl IHr
    case And l r =>
      have IHl := ih (esize l) (by simp [esize] at he; omega) l le_rfl
      have IHr := ih (esize r) (by simp [esize] at he; omega) r le_rfl
      exact binop_idem_case .And l r (foldP_and l r) (foldP_and (fold l) (fold r)) IHl IHr
    case Xor l r =>
      have IHl := ih (esize l) (by simp [esize] at he; omega) l le_rfl
      have IHr := ih (esize r) (by simp [esize] at he; omega) r le_rfl
      exact binop_idem_case .Xor l r (foldP_xor l r) (foldP_xor (fold l) (fold r)) IHl IHr
    case Lshift l r =>
      have IHl := ih (esize l) (by simp [esize] at he; omega) l le_rfl
      have IHr := ih (esize r) (by simp [esize] at he; omega) r le_rfl
      exact binop_idem_case .Lshift l r (foldP_lshift l r)
        (foldP_lshift (fold l) (fold r)) IHl IHr
    case Rshift l r =>
      have IHl := ih (esize l) (by simp [esize] at he; omega) l le_rfl
      have IHr := ih (esize r) (by simp [esize] at he; omega) r le_rfl
      exact binop_idem_case .Rshift l r (foldP_rshift l r)
        (foldP_rshift (fold l) (fold r)) IHl IHr
    case Max l r pn =>
      have IHl := ih (esize l) (by simp [esize] at he; omega) l le_rfl
      have IHr := ih (esize r) (by simp [esize] at he; omega) r le_rfl
      exact binop_idem_case (fun a b => .Max a b pn) l r (foldP_max l r pn)
        (foldP_max (fold l) (fold r) pn) IHl IHr
    case Min l r pn =>
      have IHl := ih (esize l) (by simp [esize] at he; omega) l le_rfl
      have IHr := ih (esize r) (by simp [esize] at he; omega) r le_rfl
      exact binop_idem_case (fun a b => .Min a b pn) l r (foldP_min l r pn)
        (foldP_min (fold l) (fold r) pn) IHl IHr
    case Sub l r =>
      have IHl := ih (esize l) (by simp [esize] at he; omega) l le_rfl
      have IHr := ih (esize r) (by simp [esize] at he; omega) r le_rfl
      have hs := foldP_sub l r
      by_cases h2 : fold r = .IntImm 0
      · rw [if_pos h2] at hs
        rw [fold_of_foldP hs]
        show fold (fold l) = fold l
        exact IHl
      · rw [if_neg h2] at hs
        by_cases hg : (isConstant (fold l) && isConstant (fold r)) = true
        · rw [if_pos hg] at hs
          rw [fold_of_foldP hs]
          show fold (evaluateOp (.Sub (fold l) (fold r))) = evaluateOp (.Sub (fold l) (fold r))
          exact fold_imm _ (evaluateOp_isImm _)
        · rw [if_neg hg] at hs
          rw [fold_of_foldP hs]
          show fold (.Sub (fold l) (fold r)) = .Sub (fold l) (fold r)
          have hs2 := foldP_sub (fold l) (fold r)
          rw [IHl, IHr] at hs2
          rw [if_neg h2, if_neg hg] at hs2
          exact fold_of_foldP hs2
    case Div l r =>
      have IHl := ih (esize l) (by simp [esize] at he; omega) l le_rfl
      have IHr := ih (esize r) (by simp [esize] at he; omega) r le_rfl
      have hs := foldP_div l r
      by_cases h2 : fold r = .IntImm 1
      · rw [if_pos h2] at hs
        rw [fold_of_foldP hs]
        show fold (fold l) = fold l
        exact IHl
      · rw [if_neg h2] at hs
        by_cases hg : (isConstant (fold l) && isConstant (fold r)) = true
        · rw [if_pos hg] at hs
          rw [fold_of_foldP hs]
          show fold (evaluateOp (.Div (fold l) (fold r))) = evaluateOp (.Div (fold l) (fold r))
          exact fold_imm _ (evaluateOp_isImm _)
        · rw [if_neg hg] at hs
          rw [fold_of_foldP hs]
          show fold (.Div (fold l) (fold r)) = .Div (fold l) (fold r)
          have hs2 := foldP_div (fold l) (fold r)
          rw [IHl, IHr] at hs2
          rw [if_neg h2, if_neg hg] at hs2
          exact fold_of_foldP hs2
    case Add l r =>
      have IHl := ih (esize l) (by simp [esize] at he; omega) l le_rfl
      have IHr := ih (esize r) (by simp [esize] at he; omega) r le_rfl
      have ha := foldP_add l r
      by_cases h1 : fold l = .IntImm 0
      · rw [if_pos h1] at ha
        rw [fold_of_foldP ha]
        show fold (fold r) = fold r
        exact IHr
      · rw [if_neg h1] at ha
        by_cases h2 : fold r = .IntImm 0
        · rw [if_pos h2] at ha
          rw [fold_of_foldP ha]
          show fold (fold l) = fold l
          exact IHl
        · rw [if_neg h2] at ha
          rcases addRampL_cases foldP (.Add l r) l r (fold l) (fold r)
              (foldLog l ++ foldLog r) with
            ⟨_, hres⟩ | ⟨bv, L, base, stride, L2, hlB, _, hrR, hres⟩ | ⟨hb0, hbr, hres⟩
          · rw [hres] at ha
            rw [fold_of_foldP ha]
            show fold (fold r) = fold r
            exact IHr
          · rw [hres] at ha
            rw [fold_of_foldP ha]
            show fold (fold (.Ramp (.Add bv base) stride L2)) = fold (.Ramp (.Add bv base) stride L2)
            exact ih (esize (.Ramp (.Add bv base) stride L2))
              (by
                have hsl := fold_size l
                have hsr := fold_size r
                rw [hlB] at hsl
                rw [hrR] at hsr
                simp [esize] at hsl hsr he ⊢
                omega)
              (.Ramp (.Add bv base) stride L2) le_rfl
          · rw [hres] at ha
            rcases addRampR_cases foldP (.Add l r) l r (fold l) (fold r)
                (foldLog l ++ foldLog r) with
              ⟨_, hres2⟩ | ⟨bv, L, base, stride, L2, hrB, _, hlR, hres2⟩
                | ⟨hb0r, hbrr, hres2⟩
            · rw [hres2] at ha
              rw [fold_of_foldP ha]
              show fold (fold l) = fold l
              exact IHl
            · rw [hres2] at ha
              rw [fold_of_foldP ha]
              show fold (fold (.Ramp (.Add bv base) stride L2)) = fold (.Ramp (.Add bv base) stride L2)
              exact ih (esize (.Ramp (.Add bv base) stride L2))
                (by
                  have hsl := fold_size l
                  have hsr := fold_size r
                  rw [hlR] at hsl
                  rw [hrB] at hsr
                  simp [esize] at hsl hsr he ⊢
                  omega)
                (.Ramp (.Add bv base) stride L2) le_rfl
            · rw [hres2] at ha
              rw [foldFinish_eq .Add (.Add l r) l r (fold l) (fold r)
                (foldLog l ++ foldLog r) rfl] at ha
              by_cases hg : (isConstant (fold l) && isConstant (fold r)) = true
              · rw [if_pos hg] at ha
                rw [fold_of_foldP ha]
                show fold (evaluateOp (.Add (fold l) (fold r))) = evaluateOp (.Add (fold l) (fold r))
                exact fold_imm _ (evaluateOp_isImm _)
              · rw [if_neg hg] at ha
                rw [fold_of_foldP ha]
                show fold (.Add (fold l) (fold r)) = .Add (fold l) (fold r)
                have ha2 := foldP_add (fold l) (fold r)
                rw [IHl, IHr] at ha2
                rw [if_neg h1, if_neg h2] at ha2
                rcases addRampL_cases foldP (.Add (fold l) (fold r)) (fold l) (fold r)
                    (fold l) (fold r) (foldLog (fold l) ++ foldLog (fold r)) with
                  ⟨hb0', _⟩ | ⟨bv, L, base, stride, L2, hlB', _, hrR', _⟩ | ⟨_, _, hres'⟩
                · rw [hb0] at hb0'
                  simp at hb0'
                · rw [hlB', hrR'] at hbr
                  simp [isBroadcast, isRamp] at hbr
                · rw [hres'] at ha2
                  rcases addRampR_cases foldP (.Add (fold l) (fold r)) (fold l) (fold r)
                      (fold l) (fold r) (foldLog (fold l) ++ foldLog (fold r)) with
                    ⟨hb0r', _⟩ | ⟨bv, L, base, stride, L2, hrB', _, hlR', _⟩
                      | ⟨_, _, hres''⟩
                  · rw [hb0r] at hb0r'
                    simp at hb0r'
                  · rw [hrB', hlR'] at hbrr
                    simp [isBroadcast, isRamp] at hbrr
                  · rw [hres''] at ha2
                    rw [foldFinish_eq .Add (.Add (fold l) (fold r)) (fold l) (fold r)
                      (fold l) (fold r) (foldLog (fold l) ++ foldLog (fold r)) rfl] at ha2
                    rw [if_neg hg] at ha2
                    exact fold_of_foldP ha2
    case Mul l r =>
      have IHl := ih (esize l) (by simp [esize] at he; omega) l le_rfl
      have IHr := ih (esize r) (by simp [esize] at he; omega) r le_rfl
      have ha := foldP_mul l r
      by_cases h1 : fold l = .IntImm 1
      · rw [if_pos h1] at ha
        rw [fold_of_foldP ha]
        show fold (fold r) = fold r
        exact IHr
      · rw [if_neg h1] at ha
        by_cases h2 : fold r = .IntImm 1
        · rw [if_pos h2] at ha
          rw [fold_of_foldP ha]
          show fold (fold l) = fold l
          exact IHl
        · rw [if_neg h2] at ha
          by_cases h3 : fold l = .FloatImm 1
          · rw [if_pos h3] at ha
            rw [fold_of_foldP ha]
            show fold (fold r) = fold r
            exact IHr
          · rw [if_neg h3] at ha
            by_cases h4 : fold r = .FloatImm 1
            · rw [if_pos h4] at ha
              rw [fold_of_foldP ha]
              show fold (fold l) = fold l
              exact IHl
            · rw [if_neg h4] at ha
              rcases mulBroadcastL_cases (.Mul l r) l r (fold l) (fold r)
                  (foldLog l ++ foldLog r) with ⟨_, hres⟩ | ⟨hbl1, hres⟩
              · rw [hres] at ha
                rw [fold_of_foldP ha]
                show fold (fold r) = fold r
                exact IHr
              · rw [hres] at ha
                rcases mulBroadcastR_cases (.Mul l r) l r (fold l) (fold r)
                    (foldLog l ++ foldLog r) with ⟨_, hres2⟩ | ⟨hbr1, hres2⟩
                · rw [hres2] at ha
                  rw [fold_of_foldP ha]
                  show fold (fold l) = fold l
                  exact IHl
                · rw [hres2] at ha
                  rw [foldFinish_eq .Mul (.Mul l r) l r (fold l) (fold r)
                    (foldLog l ++ foldLog r) rfl] at ha
                  by_cases hg : (isConstant (fold l) && isConstant (fold r)) = true
                  · rw [if_pos hg] at ha
                    rw [fold_of_foldP ha]
                    show fold (evaluateOp (.Mul (fold l) (fold r))) = evaluateOp (.Mul (fold l) (fold r))
                    exact fold_imm _ (evaluateOp_isImm _)
                  · rw [if_neg hg] at ha
                    rw [fold_of_foldP ha]
                    show fold (.Mul (fold l) (fold r)) = .Mul (fold l) (fold r)
                    have ha2 := foldP_mul (fold l) (fold r)
                    rw [IHl, IHr] at ha2
                    rw [if_neg h1, if_neg h2, if_neg h3, if_neg h4] at ha2
                    rcases mulBroadcastL_cases (.Mul (fold l) (fold r)) (fold l) (fold r)
                        (fold l) (fold r) (foldLog (fold l) ++ foldLog (fold r)) with
                      ⟨hb1', _⟩ | ⟨_, hres'⟩
                    · rw [hbl1] at hb1'
                      simp at hb1'
                    · rw [hres'] at ha2
                      rcases mulBroadcastR_cases (.Mul (fold l) (fold r)) (fold l)
                          (fold r) (fold l) (fold r)
                          (foldLog (fold l) ++ foldLog (fold r)) with
                        ⟨hb1r', _⟩ | ⟨_, hres''⟩
                      · rw [hbr1] at hb1r'
                        simp at hb1r'
                      · rw [hres''] at ha2
                        rw [foldFinish_eq .Mul (.Mul (fold l) (fold r)) (fold l) (fold r)
                          (fold l) (fold r)
                          (foldLog (fold l) ++ foldLog (fold r)) rfl] at ha2
                        rw [if_neg hg] at ha2
                        exact fold_of_foldP ha2

/-- C7: The pass is idempotent: running the constant folder on the result of a
previous run changes nothing, for every expression. -/
theorem c7_idempotent (e : Expr) : fold (fold e) = fold e :=
  fold_idem_aux (esize e) e le_rfl
